import Mathlib

/-!
Verification of the edge-lexer core: a shallow embedding of the
whitespace-collapsing character bucket (`CharBucket`), the tag-argument
statement machine (`TagStatement`), the mustache interpolation statement
machine (`MustacheStatement`) and the orchestrating `Tokenizer`, followed
by theorems about the lexer's behaviour.

Modelling conventions:
- JavaScript strings are modelled as `List Char` (named `Str` below);
  `charCodeAt`-based comparisons against the source's numeric constants
  (40, 41, 123, 125) are modelled with `Char.ofNat` of those constants.
- Mutation is modelled by explicit state passing; methods that can throw
  return `Except Str`.
- The source's `internalProps = null` assignments after a statement ends
  are omitted: every read of `internalProps` in the source is guarded by
  the `ended` / `seeking` checks that precede the nulling, so keeping the
  buckets in place is observationally equivalent.
- `os.EOL` is modelled as `'\n'` (the POSIX line terminator).
-/

namespace EdgeLexer

/-- JavaScript strings are modelled as lists of characters. -/
abbrev Str := List Char

/-- Decidable equality for `Except`, used to evaluate concrete runs of the
fallible operations in witnesses. -/
instance {ε α : Type} [DecidableEq ε] [DecidableEq α] : DecidableEq (Except ε α) := fun x y =>
  match x, y with
  | Except.error a, Except.error b =>
    if h : a = b then isTrue (by rw [h]) else isFalse (by intro hc; cases hc; exact h rfl)
  | Except.error _, Except.ok _ => isFalse (by intro hc; cases hc)
  | Except.ok _, Except.error _ => isFalse (by intro hc; cases hc)
  | Except.ok a, Except.ok b =>
    if h : a = b then isTrue (by rw [h]) else isFalse (by intro hc; cases hc; exact h rfl)

/-- The character class matched by the JavaScript regex class `\s`
(as used by the `is-whitespace-character` package). -/
def isWhitespaceChar (c : Char) : Bool :=
  let n := c.toNat
  n == 32 || (9 ≤ n && n ≤ 13) || n == 160 || n == 0x1680 ||
    (0x2000 ≤ n && n ≤ 0x200a) || n == 0x2028 || n == 0x2029 ||
    n == 0x202f || n == 0x205f || n == 0x3000 || n == 0xfeff

/-- The character class of the JavaScript regex class `\w`. -/
def isWordChar (c : Char) : Bool :=
  (c.isAlphanum && c.toNat < 128) || c == '_'

/-- JavaScript `String.prototype.trim`: strip leading and trailing
whitespace. -/
def trimStr (s : Str) : Str :=
  ((s.dropWhile isWhitespaceChar).reverse.dropWhile isWhitespaceChar).reverse

/-- The three whitespace policies of the `WhiteSpaceModes` enum in
`Contracts/index.ts`. -/
inductive WhiteSpaceModes where
  | NONE
  | ALL
  | CONTROLLED
deriving DecidableEq, Repr

/-- `CharBucket` from `CharBucket/index.ts`: accumulates characters under a
whitespace policy.  `lastChar` is a JavaScript string (initially `''`),
modelled as a `Str`. -/
structure CharBucket where
  whitespace : WhiteSpaceModes
  chars : Str
  lastChar : Str
deriving DecidableEq, Repr

/-- The `CharBucket` constructor. -/
def CharBucket.init (m : WhiteSpaceModes) : CharBucket :=
  ⟨m, [], []⟩

/-- `CharBucket.get`: returns all chars recorded so far. -/
def CharBucket.get (b : CharBucket) : Str := b.chars

/-- `whitespace(char)` applied to the `lastChar` string: `charAt(0)` of the
empty string is `''`, which is not whitespace. -/
def wsHead (s : Str) : Bool :=
  match s with
  | [] => false
  | c :: _ => isWhitespaceChar c

/-- `CharBucket.feed`: appends one character under the configured policy.
In `CONTROLLED` mode a whitespace character is dropped when the previously
accepted character was also whitespace; only this mode updates `lastChar`. -/
def CharBucket.feed (b : CharBucket) (c : Char) : CharBucket :=
  if b.whitespace = WhiteSpaceModes.CONTROLLED then
    if isWhitespaceChar c && wsHead b.lastChar then b
    else { b with chars := b.chars ++ [c], lastChar := [c] }
  else if b.whitespace = WhiteSpaceModes.NONE then
    if isWhitespaceChar c then b
    else { b with chars := b.chars ++ [c] }
  else
    { b with chars := b.chars ++ [c] }

/-- The `'('` character, `OPENING_BRACE = 40` in `TagStatement/index.ts`. -/
def parenOpen : Char := Char.ofNat 40

/-- The `')'` character, `CLOSING_BRACE = 41` in `TagStatement/index.ts`. -/
def parenClose : Char := Char.ofNat 41

/-- The `'{'` character, `OPENING_BRACE = 123` in
`MustacheStatement/index.ts`. -/
def braceOpen : Char := Char.ofNat 123

/-- The `'}'` character, `CLOSING_BRACE = 125` in
`MustacheStatement/index.ts`. -/
def braceClose : Char := Char.ofNat 125

/-- The props record `{ name, jsArg, raw }` of `Contracts/index.ts`. -/
structure TagProps where
  name : Str
  jsArg : Str
  raw : Str
deriving DecidableEq, Repr

/-- The dynamic `currentProp` key of a `TagStatement`. -/
inductive TagPropKey where
  | name
  | jsArg
deriving DecidableEq, Repr

/-- The two internal `CharBucket`s of a `TagStatement`. -/
structure TagBuckets where
  name : CharBucket
  jsArg : CharBucket
deriving DecidableEq, Repr

/-- `TagStatement` from `TagStatement/index.ts`: parses multiline content
inside an edge tag starting block. -/
structure TagStatement where
  startPosition : Nat
  seekable : Bool
  started : Bool
  ended : Bool
  props : TagProps
  currentProp : TagPropKey
  internalParens : Int
  internalProps : TagBuckets
deriving DecidableEq, Repr

/-- The `TagStatement` constructor: `name` bucket uses policy `NONE`,
`jsArg` uses `CONTROLLED`. -/
def TagStatement.init (startPosition : Nat) (seekable : Bool) : TagStatement :=
  { startPosition := startPosition
    seekable := seekable
    started := false
    ended := false
    props := ⟨[], [], []⟩
    currentProp := TagPropKey.name
    internalParens := 0
    internalProps := ⟨CharBucket.init WhiteSpaceModes.NONE,
                      CharBucket.init WhiteSpaceModes.CONTROLLED⟩ }

/-- The `seeking` getter of the TypeScript source
(`src/TagStatement/index.ts`): `!this.started || !this.ended`. -/
def TagStatement.seeking (s : TagStatement) : Bool :=
  !s.started || !s.ended

/-- `isStartOfStatement`: an `(` while the current prop is still `name`. -/
def TagStatement.isStartOfStatement (s : TagStatement) (c : Char) : Bool :=
  c == parenOpen && s.currentProp == TagPropKey.name

/-- `isEndOfStatement`: a `)` while the paren depth counter is zero. -/
def TagStatement.isEndOfStatement (s : TagStatement) (c : Char) : Bool :=
  c == parenClose && s.internalParens == 0

/-- `setProp`: copies the current prop's bucket contents into `props`. -/
def TagStatement.setProp (s : TagStatement) : TagStatement :=
  match s.currentProp with
  | TagPropKey.name => { s with props := { s.props with name := s.internalProps.name.get } }
  | TagPropKey.jsArg => { s with props := { s.props with jsArg := s.internalProps.jsArg.get } }

/-- `startStatement`: freeze the `name` prop, switch collection to `jsArg`,
set `started`. -/
def TagStatement.startStatement (s : TagStatement) : TagStatement :=
  { s.setProp with currentProp := TagPropKey.jsArg, started := true }

/-- `endStatement`: fatal if the statement was never started, else set
`ended` and freeze the current prop. -/
def TagStatement.endStatement (s : TagStatement) (c : Char) : Except Str TagStatement :=
  if !s.started then
    Except.error ("Unexpected token ".toList ++ [c] ++ ". Wrap statement inside ()".toList)
  else
    Except.ok ({ s with ended := true }).setProp

/-- `feedChar`: track paren depth and feed the char to the current prop's
bucket. -/
def TagStatement.feedChar (s : TagStatement) (c : Char) : TagStatement :=
  let s := if c == parenOpen then { s with internalParens := s.internalParens + 1 } else s
  let s := if c == parenClose then { s with internalParens := s.internalParens - 1 } else s
  match s.currentProp with
  | TagPropKey.name => { s with internalProps := { s.internalProps with name := s.internalProps.name.feed c } }
  | TagPropKey.jsArg => { s with internalProps := { s.internalProps with jsArg := s.internalProps.jsArg.feed c } }

/-- The `ensureNoMoreCharsToFeed` error message. -/
def trailingErrMsg (rest : Str) : Str :=
  "Unexpected token \x7b".toList ++ rest ++ "\x7d. Write in a new line".toList

/-- The character loop of `feedSeekable`, including
`ensureNoMoreCharsToFeed` (raised when the closing paren is matched while
characters remain) and the `break` after `endStatement`. -/
def TagStatement.feedSeekableChars : TagStatement → Str → Except Str TagStatement
  | s, [] => Except.ok s
  | s, c :: rest =>
    if s.isStartOfStatement c then
      TagStatement.feedSeekableChars s.startStatement rest
    else if s.isEndOfStatement c then
      if rest.isEmpty then s.endStatement c
      else Except.error (trailingErrMsg rest)
    else
      TagStatement.feedSeekableChars (s.feedChar c) rest

/-- `recordRaw`: append the fed line to `raw`, newline-separated. -/
def TagStatement.recordRaw (s : TagStatement) (line : Str) : TagStatement :=
  if s.props.raw.isEmpty then
    { s with props := { s.props with raw := s.props.raw ++ line } }
  else
    { s with props := { s.props with raw := s.props.raw ++ '\n' :: line } }

/-- `feedNonSeekable`: the whole trimmed line becomes the name; the
statement is immediately started and ended. -/
def TagStatement.feedNonSeekable (s : TagStatement) (line : Str) : TagStatement :=
  { s with props := { s.props with name := trimStr line }, ended := true, started := true }

/-- The error message for feeding an already ended `TagStatement`. -/
def tagEndedErrMsg (line : Str) : Str :=
  "Unexpected token \x7b".toList ++ line ++ "\x7d. Write in a new line".toList

/-- `TagStatement.feed`: fatal on an ended statement, else record the raw
line and feed it through the non-seekable or seekable path. -/
def TagStatement.feed (s : TagStatement) (line : Str) : Except Str TagStatement :=
  if s.ended then Except.error (tagEndedErrMsg line)
  else
    let s := s.recordRaw line
    if !s.seekable then Except.ok (s.feedNonSeekable line)
    else s.feedSeekableChars line

/-- The props record of a `MustacheStatement`
(`{ name, jsArg, raw, textLeft, textRight }`). -/
structure MustacheProps where
  name : Str
  jsArg : Str
  raw : Str
  textLeft : Str
  textRight : Str
deriving DecidableEq, Repr

/-- The dynamic `currentProp` key of a `MustacheStatement`. -/
inductive MustachePropKey where
  | textLeft
  | jsArg
  | textRight
deriving DecidableEq, Repr

/-- The three internal `CharBucket`s of a `MustacheStatement`. -/
structure MustacheBuckets where
  jsArg : CharBucket
  textLeft : CharBucket
  textRight : CharBucket
deriving DecidableEq, Repr

/-- `MustacheStatement` from `MustacheStatement/index.ts`: parses a
`\x7b\x7b expr \x7d\x7d` (or triple-brace) interpolation, possibly spanning
multiple lines. -/
structure MustacheStatement where
  startPosition : Nat
  started : Bool
  ended : Bool
  props : MustacheProps
  currentProp : MustachePropKey
  internalBraces : Int
  internalProps : MustacheBuckets
deriving DecidableEq, Repr

/-- The `MustacheStatement` constructor: `jsArg` bucket is `CONTROLLED`,
`textLeft` and `textRight` are `ALL`; collection starts on `textLeft`. -/
def MustacheStatement.init (startPosition : Nat) : MustacheStatement :=
  { startPosition := startPosition
    started := false
    ended := false
    props := ⟨[], [], [], [], []⟩
    currentProp := MustachePropKey.textLeft
    internalBraces := 0
    internalProps := ⟨CharBucket.init WhiteSpaceModes.CONTROLLED,
                      CharBucket.init WhiteSpaceModes.ALL,
                      CharBucket.init WhiteSpaceModes.ALL⟩ }

/-- The string `'mustache'`. -/
def mustacheName : Str := "mustache".toList

/-- The string `'emustache'`. -/
def emustacheName : Str := "emustache".toList

/-- The `seeking` getter of `MustacheStatement`:
`this.started && !this.ended`. -/
def MustacheStatement.seeking (s : MustacheStatement) : Bool :=
  s.started && !s.ended

/-- `getName`: decides by lookahead whether the current char opens a
`mustache` (two braces) or `emustache` (three braces) statement, consuming
the looked-ahead braces from `chars` and recording them in `raw`.  Returns
the detected name (if any) together with the updated statement and the
remaining characters. -/
def MustacheStatement.getName (s : MustacheStatement) (chars : Str) (c : Char) :
    Option Str × MustacheStatement × Str :=
  if c != braceOpen || chars.isEmpty then (none, s, chars)
  else
    match chars with
    | [] => (none, s, chars)
    | next :: rest =>
      if next != braceOpen then (none, s, chars)
      else
        let s := { s with props := { s.props with raw := s.props.raw ++ [braceOpen, braceOpen] } }
        match rest with
        | [] => (some mustacheName, s, rest)
        | next2 :: rest2 =>
          if next2 != braceOpen then (some mustacheName, s, rest)
          else
            (some emustacheName,
             { s with props := { s.props with raw := s.props.raw ++ [braceOpen] } },
             rest2)

/-- `isClosing`: at brace depth zero, a `\x7d` followed by the full run of
consecutive closing braces required by the opening kind (one more for
`mustache`, two more for `emustache`) closes the statement, consuming the
run from `chars` and recording it in `raw`; otherwise the closing is
rejected. -/
def MustacheStatement.isClosing (s : MustacheStatement) (chars : Str) (c : Char) :
    Bool × MustacheStatement × Str :=
  if c != braceClose || s.internalBraces != 0 then (false, s, chars)
  else if s.props.name == emustacheName && 2 ≤ chars.length then
    match chars with
    | next :: nextToNext :: rest =>
      if next == braceClose && nextToNext == braceClose then
        (true,
         { s with props := { s.props with raw := s.props.raw ++ [braceClose, braceClose] } },
         rest)
      else (false, s, chars)
    | _ => (false, s, chars)
  else if s.props.name == mustacheName && 1 ≤ chars.length then
    match chars with
    | next :: rest =>
      if next == braceClose then
        (true,
         { s with props := { s.props with raw := s.props.raw ++ [braceClose] } },
         rest)
      else (false, s, chars)
    | _ => (false, s, chars)
  else (false, s, chars)

/-- `setProp` of `MustacheStatement`: copy the current prop's bucket into
`props`. -/
def MustacheStatement.setProp (s : MustacheStatement) : MustacheStatement :=
  match s.currentProp with
  | MustachePropKey.textLeft =>
    { s with props := { s.props with textLeft := s.internalProps.textLeft.get } }
  | MustachePropKey.jsArg =>
    { s with props := { s.props with jsArg := s.internalProps.jsArg.get } }
  | MustachePropKey.textRight =>
    { s with props := { s.props with textRight := s.internalProps.textRight.get } }

/-- The brace-depth bookkeeping and bucket feed at the end of
`processChar`. -/
def MustacheStatement.feedCurrentChar (s : MustacheStatement) (c : Char) : MustacheStatement :=
  let s := if c == braceOpen then { s with internalBraces := s.internalBraces + 1 } else s
  let s := if c == braceClose then { s with internalBraces := s.internalBraces - 1 } else s
  match s.currentProp with
  | MustachePropKey.textLeft =>
    { s with internalProps := { s.internalProps with textLeft := s.internalProps.textLeft.feed c } }
  | MustachePropKey.jsArg =>
    { s with internalProps := { s.internalProps with jsArg := s.internalProps.jsArg.feed c } }
  | MustachePropKey.textRight =>
    { s with internalProps := { s.internalProps with textRight := s.internalProps.textRight.feed c } }

/-- The tail of `processChar` after the start-of-statement check: when the
statement is started and not ended, try `isClosing` and on success freeze
`jsArg`, switch to `textRight` and set `ended`; otherwise fall through to
`feedCurrentChar`. -/
def MustacheStatement.closingOrFeed (s : MustacheStatement) (chars : Str) (c : Char) :
    MustacheStatement × Str :=
  if s.started && !s.ended then
    match s.isClosing chars c with
    | (true, s2, chars2) =>
      ({ s2.setProp with currentProp := MustachePropKey.textRight, ended := true }, chars2)
    | (false, s2, chars2) => (s2.feedCurrentChar c, chars2)
  else
    (s.feedCurrentChar c, chars)

/-- `processChar`: one step of the mustache scanner.  Records the char in
`raw` while collecting `jsArg`, detects the opening braces via `getName`
when not yet started (switching to `jsArg` collection when they are found),
and otherwise runs the closing check / bucket feed of `closingOrFeed`.
Returns the updated statement and remaining characters. -/
def MustacheStatement.processChar (s : MustacheStatement) (chars : Str) (c : Char) :
    MustacheStatement × Str :=
  let s := if s.currentProp == MustachePropKey.jsArg then
    { s with props := { s.props with raw := s.props.raw ++ [c] } } else s
  if !s.started then
    match s.getName chars c with
    | (some n, s2, chars2) =>
      let s2 := { s2 with props := { s2.props with name := n }, started := true }
      ({ s2.setProp with currentProp := MustachePropKey.jsArg }, chars2)
    | (none, s2, chars2) => s2.closingOrFeed chars2 c
  else
    s.closingOrFeed chars c

/-- `getName` never lengthens the remaining characters. -/
theorem MustacheStatement.getName_chars_le (s : MustacheStatement) (chars : Str) (c : Char) :
    (s.getName chars c).2.2.length ≤ chars.length := by
  unfold MustacheStatement.getName
  cases chars with
  | nil => simp
  | cons next rest =>
    by_cases h : c != braceOpen
    · simp [h]
    · simp only [h]
      by_cases h2 : next != braceOpen
      · simp [h2]
      · cases rest with
        | nil => simp [h2]
        | cons n2 r2 =>
          by_cases h3 : n2 != braceOpen <;> simp [h2, h3] <;> omega

/-- `isClosing` never lengthens the remaining characters. -/
theorem MustacheStatement.isClosing_chars_le (s : MustacheStatement) (chars : Str) (c : Char) :
    (s.isClosing chars c).2.2.length ≤ chars.length := by
  unfold MustacheStatement.isClosing
  by_cases h : c != braceClose || s.internalBraces != 0
  · simp [h]
  · simp only [h]
    by_cases h2 : s.props.name == emustacheName && 2 ≤ chars.length
    · simp only [h2]
      cases chars with
      | nil => simp
      | cons a t =>
        cases t with
        | nil => simp
        | cons b r =>
          by_cases h3 : a == braceClose && b == braceClose <;> simp [h3] <;> omega
    · simp only [h2]
      by_cases h4 : s.props.name == mustacheName && 1 ≤ chars.length
      · simp only [h4]
        cases chars with
        | nil => simp
        | cons a r =>
          by_cases h5 : a == braceClose <;> simp [h5] <;> omega
      · simp [h4]

/-- `closingOrFeed` never lengthens the remaining characters. -/
theorem MustacheStatement.closingOrFeed_chars_le (s : MustacheStatement) (chars : Str) (c : Char) :
    (s.closingOrFeed chars c).2.length ≤ chars.length := by
  unfold MustacheStatement.closingOrFeed
  by_cases hse : s.started && !s.ended
  · simp only [hse]
    have h2 := MustacheStatement.isClosing_chars_le s chars c
    rcases hc : s.isClosing chars c with ⟨cl, s3, chars3⟩
    rw [hc] at h2
    cases cl <;> simpa [hc] using h2
  · simp [hse]

/-- `processChar` never lengthens the remaining characters. -/
theorem MustacheStatement.processChar_chars_le (s : MustacheStatement) (chars : Str) (c : Char) :
    (s.processChar chars c).2.length ≤ chars.length := by
  unfold MustacheStatement.processChar
  set s1 := (if s.currentProp == MustachePropKey.jsArg then
      { s with props := { s.props with raw := s.props.raw ++ [c] } } else s) with hs1
  by_cases hs : !s1.started
  · simp only [hs, if_pos]
    have h1 := MustacheStatement.getName_chars_le s1 chars c
    rcases hg : s1.getName chars c with ⟨n, s2, chars2⟩
    rw [hg] at h1
    cases n with
    | some nm => simpa [hg] using h1
    | none =>
      simp only [hg]
      calc (s2.closingOrFeed chars2 c).2.length
          ≤ chars2.length := MustacheStatement.closingOrFeed_chars_le s2 chars2 c
        _ ≤ chars.length := h1
  · simp only [hs, if_neg, Bool.false_eq_true, not_false_eq_true]
    exact MustacheStatement.closingOrFeed_chars_le s1 chars c

/-- The character loop of `MustacheStatement.feed`: shift one char at a
time and run `processChar` on it, until the line is exhausted.  The `fuel`
argument makes the recursion structural; since every step consumes at
least the shifted head character, fuel equal to the length of the
character list always suffices (see `MustacheStatement.processChars_fuel`). -/
def MustacheStatement.processChars : Nat → MustacheStatement → Str → MustacheStatement
  | 0, s, _ => s
  | _ + 1, s, [] => s
  | fuel + 1, s, c :: rest =>
    match s.processChar rest c with
    | (s2, rest2) => MustacheStatement.processChars fuel s2 rest2

/-- With enough fuel, the fuel value is irrelevant. -/
theorem MustacheStatement.processChars_fuel (n : Nat) :
    ∀ (f1 f2 : Nat) (s : MustacheStatement) (cs : Str), cs.length ≤ n →
      cs.length ≤ f1 → cs.length ≤ f2 →
      MustacheStatement.processChars f1 s cs = MustacheStatement.processChars f2 s cs := by
  induction n with
  | zero =>
    intro f1 f2 s cs hn _ _
    have : cs = [] := List.eq_nil_of_length_eq_zero (Nat.le_zero.mp hn)
    subst this
    cases f1 <;> cases f2 <;> rfl
  | succ n ih =>
    intro f1 f2 s cs hn h1 h2
    cases cs with
    | nil => cases f1 <;> cases f2 <;> rfl
    | cons c rest =>
      cases f1 with
      | zero => simp at h1
      | succ f1 =>
        cases f2 with
        | zero => simp at h2
        | succ f2 =>
          simp only [MustacheStatement.processChars]
          rcases hp : s.processChar rest c with ⟨s2, rest2⟩
          have hle := MustacheStatement.processChar_chars_le s rest c
          rw [hp] at hle
          have hle2 : rest2.length ≤ rest.length := hle
          simp only [List.length_cons] at hn h1 h2
          exact ih f1 f2 s2 rest2 (by omega) (by omega) (by omega)

/-- The error message for feeding an already ended `MustacheStatement`. -/
def mustacheEndedErrMsg (line : Str) : Str :=
  "Unexpected token \x7b".toList ++ line ++ "\x7d".toList

/-- `MustacheStatement.feed`: fatal on an ended statement; otherwise insert
a newline into `raw` (when non-empty), run the scanner over the line, and
when no longer seeking freeze the current prop. -/
def MustacheStatement.feed (s : MustacheStatement) (line : Str) : Except Str MustacheStatement :=
  if s.ended then Except.error (mustacheEndedErrMsg line)
  else
    let s := if s.props.raw.isEmpty then s
      else { s with props := { s.props with raw := s.props.raw ++ ['\n'] } }
    let s := MustacheStatement.processChars line.length s line
    if !s.seeking then Except.ok s.setProp else Except.ok s

/-- A tag definition from the externally supplied table
(`{ block?: boolean, seekable?: boolean }`). -/
structure TagDef where
  block : Bool
  seekable : Bool
deriving DecidableEq, Repr

/-- The tag-definition table, keyed by tag name. -/
abbrev TagsDef := List (Str × TagDef)

/-- The result of `Tokenizer.getTag`: either an escaped tag
(`\x7b escaped: true \x7d`) or the tag's definition from the table. -/
inductive TagMatch where
  | escaped
  | found (d : TagDef)
deriving DecidableEq, Repr

/-- The node type of `Contracts/index.ts` (`NodeType` plus per-variant
fields): `raw`, `newline`, `mustache` (whose `properties` keep only
`name`/`jsArg`/`raw`) and `block` (with `children`). -/
inductive Node where
  | raw (value : Str) (lineno : Nat)
  | newline (lineno : Nat)
  | mustache (lineno : Nat) (properties : TagProps)
  | block (lineno : Nat) (properties : TagProps) (children : List Node)
deriving Repr

/-- An entry of the `openedTags` stack: a `Block` node under construction
whose `children` are still being appended to. -/
structure OpenTag where
  lineno : Nat
  properties : TagProps
  children : List Node
deriving Repr

/-- Convert a finished `openedTags` entry into its `Block` node. -/
def OpenTag.toNode (b : OpenTag) : Node :=
  Node.block b.lineno b.properties b.children

/-- The match of `TAG_REGEX` (an optional `\`, then `@`, an optional `!`,
then one or more word characters) against a line: returns the escape flag
and the tag identifier. -/
def matchTag (s : Str) : Option (Bool × Str) :=
  let (esc, rest) :=
    match s with
    | '\\' :: r => (true, r)
    | _ => (false, s)
  match rest with
  | '@' :: r2 =>
    let r3 := match r2 with
      | '!' :: r => r
      | _ => r2
    let name := r3.takeWhile isWordChar
    if name.isEmpty then none else some (esc, name)
  | _ => none

/-- `MUSTACHE_REGEX` (`two consecutive opening braces anywhere`). -/
def hasMustache : Str → Bool
  | a :: b :: rest => (a == braceOpen && b == braceOpen) || hasMustache (b :: rest)
  | _ => false

/-- `ESCAPE_REGEX` replacement `text.replace(ESCAPE_REGEX, '$1')`: drop the
backslash that follows the leading whitespace, if there is one. -/
def stripEscape (s : Str) : Str :=
  let ws := s.takeWhile isWhitespaceChar
  let rest := s.dropWhile isWhitespaceChar
  match rest with
  | '\\' :: r => ws ++ r
  | _ => s

/-- `TRIM_TAG_REGEX` replacement (strip one leading `@`). -/
def stripAtSign (s : Str) : Str :=
  match s with
  | '@' :: r => r
  | _ => s

/-- The `Tokenizer` state: token list, open-block stack (most recent
first), at most one open tag / mustache statement, current line number and
the supplied tag-definition table. -/
structure Tokenizer where
  tagsDef : TagsDef
  tokens : List Node
  openedTags : List OpenTag
  blockStatement : Option TagStatement
  mustacheStatement : Option MustacheStatement
  line : Nat
deriving Repr

/-- The `Tokenizer` constructor (the template itself is passed to `parse`). -/
def Tokenizer.init (tagsDef : TagsDef) : Tokenizer :=
  ⟨tagsDef, [], [], none, none, 0⟩

/-- `Tokenizer.getTag`: match the trimmed line against `TAG_REGEX`, look
the identifier up in the table (unknown identifiers give `none`), and
report escaped matches specially. -/
def Tokenizer.getTag (tagsDef : TagsDef) (line : Str) : Option TagMatch :=
  match matchTag (trimStr line) with
  | none => none
  | some (esc, tagName) =>
    match tagsDef.lookup tagName with
    | none => none
    | some d => if esc then some TagMatch.escaped else some (TagMatch.found d)

/-- `Tokenizer.isClosingTag`: the trimmed line equals `@end` + the name of
the most recently opened tag (false when no tag is open). -/
def Tokenizer.isClosingTag (t : Tokenizer) (line : Str) : Bool :=
  match t.openedTags with
  | [] => false
  | recent :: _ => trimStr line == "@end".toList ++ recent.properties.name

/-- `Tokenizer.consumeNode`: append a node to the children of the most
recently opened tag, or to the root token list when no tag is open. -/
def Tokenizer.consumeNode (t : Tokenizer) (n : Node) : Tokenizer :=
  match t.openedTags with
  | [] => { t with tokens := t.tokens ++ [n] }
  | top :: rest => { t with openedTags := { top with children := top.children ++ [n] } :: rest }

/-- The JavaScript `TypeError` raised by
`this.tagsDef[props.name].block` when the collected name is not a key of
the tag-definition table. -/
def tagLookupTypeErrMsg : Str :=
  "TypeError: Cannot read property block of undefined".toList

/-- `Tokenizer.feedTextToBlockStatement`: feed the line to the open tag
statement; when it is no longer seeking, build its node (pushing it on the
open-tag stack when the definition says `block`), emit a `Newline` node and
clear the statement.  The unchecked `this.tagsDef[props.name].block` access
is modelled as an error when the lookup fails. -/
def Tokenizer.feedTextToBlockStatement (t : Tokenizer) (bs : TagStatement) (text : Str) :
    Except Str Tokenizer :=
  match bs.feed text with
  | Except.error e => Except.error e
  | Except.ok bs2 =>
    if bs2.seeking then Except.ok { t with blockStatement := some bs2 }
    else
      match t.tagsDef.lookup bs2.props.name with
      | none => Except.error tagLookupTypeErrMsg
      | some d =>
        let t2 :=
          if d.block then
            { t with openedTags := ⟨bs2.startPosition, bs2.props, []⟩ :: t.openedTags }
          else
            t.consumeNode (Node.block bs2.startPosition bs2.props [])
        let t3 := t2.consumeNode (Node.newline t2.line)
        Except.ok { t3 with blockStatement := none }

/-- The error used for the unreachable out-of-fuel case of `processText`
(the fuel passed by `parse` always suffices, see
`processText_fuel_irrelevant`-style lemmas below). -/
def fuelErrMsg : Str := "out of fuel".toList

/-- The node emission when a mustache statement has ended
(`feedTextToMustacheStatement` before the `textRight` dispatch): the
`textLeft` raw node when non-empty (line-numbered at the statement's start
position), then the `Mustache` node. -/
def Tokenizer.emitMustacheNodes (t : Tokenizer) (ms2 : MustacheStatement) : Tokenizer :=
  let t1 :=
    if ms2.props.textLeft.isEmpty then t
    else t.consumeNode (Node.raw ms2.props.textLeft ms2.startPosition)
  t1.consumeNode
    (Node.mustache ms2.startPosition ⟨ms2.props.name, ms2.props.jsArg, ms2.props.raw⟩)

/-- `Tokenizer.processText`: route the text to the open tag statement, the
open mustache statement, or classify it from scratch.  The local
`feedMustache` mirrors the source's `feedTextToMustacheStatement` (feed
the open mustache statement; once it ends, emit its nodes and either
re-classify `textRight` through the recursion or emit a `Newline` node),
and `classify` mirrors the fresh-line classification (escaped tag, known
tag, closing tag line, mustache occurrence, plain raw line).  The `fuel`
argument makes the `textRight` recursion structural; `text.length + 1`
always suffices (each re-classified `textRight` is at least two characters
shorter than the text it came from). -/
def Tokenizer.processText : Nat → Tokenizer → Str → Except Str Tokenizer
  | 0, _, _ => Except.error fuelErrMsg
  | Nat.succ fuel, t, text =>
    let feedMustache : Tokenizer → MustacheStatement → Str → Except Str Tokenizer :=
      fun t0 ms mtext =>
        match ms.feed mtext with
        | Except.error e => Except.error e
        | Except.ok ms2 =>
          if ms2.seeking then Except.ok { t0 with mustacheStatement := some ms2 }
          else
            let t3 := { t0.emitMustacheNodes ms2 with mustacheStatement := none }
            if ms2.props.textRight.isEmpty then
              Except.ok (t3.consumeNode (Node.newline t3.line))
            else
              Tokenizer.processText fuel t3 ms2.props.textRight
    let classify : Tokenizer → Str → Except Str Tokenizer :=
      fun t0 ctext =>
        match Tokenizer.getTag t0.tagsDef ctext with
        | some TagMatch.escaped =>
          Except.ok ((t0.consumeNode (Node.raw (stripEscape ctext) t0.line)).consumeNode
            (Node.newline t0.line))
        | some (TagMatch.found d) =>
          t0.feedTextToBlockStatement (TagStatement.init t0.line d.seekable)
            (stripAtSign (trimStr ctext))
        | none =>
          if t0.isClosingTag ctext then
            match t0.openedTags with
            | [] => Except.ok t0
            | top :: rest =>
              let t1 := { t0 with openedTags := rest }
              Except.ok ((t1.consumeNode top.toNode).consumeNode (Node.newline t1.line))
          else if hasMustache ctext then
            feedMustache t0 (MustacheStatement.init t0.line) ctext
          else
            Except.ok ((t0.consumeNode (Node.raw ctext t0.line)).consumeNode
              (Node.newline t0.line))
    let afterBlock : Tokenizer → Str → Except Str Tokenizer :=
      fun t0 btext =>
        match t0.mustacheStatement with
        | some ms =>
          if ms.seeking then feedMustache t0 ms btext else classify t0 btext
        | none => classify t0 btext
    match t.blockStatement with
    | some bs =>
      if bs.seeking then t.feedTextToBlockStatement bs text
      else afterBlock t text
    | none => afterBlock t text

/-- Split a template on the `'\n'` line terminator (`template.split(EOL)`;
the split of the empty string is one empty line, as in JavaScript). -/
def splitOnNl : Str → List Str
  | [] => [[]]
  | c :: rest =>
    if c == '\n' then [] :: splitOnNl rest
    else
      match splitOnNl rest with
      | [] => [[c]]
      | l :: ls => (c :: l) :: ls

/-- The line loop of `Tokenizer.parse`: bump the line counter and process
each line in order. -/
def Tokenizer.processLines : Tokenizer → List Str → Except Str Tokenizer
  | t, [] => Except.ok t
  | t, l :: ls =>
    match Tokenizer.processText (l.length + 1) { t with line := t.line + 1 } l with
    | Except.error e => Except.error e
    | Except.ok t2 => Tokenizer.processLines t2 ls

/-- The end-of-input recovery of `Tokenizer.parse`: a still-open tag
statement becomes a `Raw` node of `@` + its raw text, a still-open mustache
statement becomes a `Raw` node of `textLeft + raw + textRight`; each is
followed by a `Newline` node. -/
def Tokenizer.finalize (t : Tokenizer) : Tokenizer :=
  let t :=
    match t.blockStatement with
    | some bs =>
      ({ t.consumeNode (Node.raw ('@' :: bs.props.raw) t.line) with
          blockStatement := none }).consumeNode (Node.newline t.line)
    | none => t
  match t.mustacheStatement with
  | some ms =>
    ({ t.consumeNode
        (Node.raw (ms.props.textLeft ++ ms.props.raw ++ ms.props.textRight) t.line) with
        mustacheStatement := none }).consumeNode (Node.newline t.line)
  | none => t

/-- `Tokenizer.parse`: split the template into lines, process them in
order, run the end-of-input recovery, and return the token list. -/
def Tokenizer.parse (template : Str) (tagsDef : TagsDef) : Except Str (List Node) :=
  match Tokenizer.processLines (Tokenizer.init tagsDef) (splitOnNl template) with
  | Except.error e => Except.error e
  | Except.ok t => Except.ok t.finalize.tokens

mutual

/-- The serialization of a node used by the round-trip property: `Raw`
values verbatim, one line break per `Newline`, the `raw` field of a
`Mustache`, and the in-order serialization of a `Block`'s children (a
block's own properties contribute nothing). -/
def serializeNode : Node → Str
  | Node.raw v _ => v
  | Node.newline _ => ['\n']
  | Node.mustache _ p => p.raw
  | Node.block _ _ children => serializeNodes children

/-- Serialization of a token list, in order. -/
def serializeNodes : List Node → Str
  | [] => []
  | n :: ns => serializeNode n ++ serializeNodes ns

end

mutual

/-- The block-nesting depth of a node. -/
def nodeDepth : Node → Nat
  | Node.raw _ _ => 0
  | Node.newline _ => 0
  | Node.mustache _ _ => 0
  | Node.block _ _ children => 1 + nodesDepth children

/-- The maximal block-nesting depth over a token list. -/
def nodesDepth : List Node → Nat
  | [] => 0
  | n :: ns => max (nodeDepth n) (nodesDepth ns)

end

/-- Serialization distributes over list append. -/
theorem serializeNodes_append (xs ys : List Node) :
    serializeNodes (xs ++ ys) = serializeNodes xs ++ serializeNodes ys := by
  induction xs with
  | nil => simp [serializeNodes]
  | cons n ns ih => simp [serializeNodes, ih]

/-- Feed a whole character sequence to a `CharBucket`, one character at a
time (possibly split over several `feed` calls, which compose by
`List.foldl_append`). -/
def CharBucket.feedAll (b : CharBucket) (cs : Str) : CharBucket :=
  cs.foldl CharBucket.feed b

/-- Modelled from the spec: the `CONTROLLED` collapsing policy described
in the specification — a fed whitespace character is dropped exactly when
the previously accepted character was also whitespace, so each maximal
run of consecutive whitespace characters is replaced by its first
character.  (`prevWs` says whether the previously accepted character was
whitespace.)  This is the specification-side description compared against
`CharBucket.feed`. -/
def controlledCollapse (prevWs : Bool) : Str → Str
  | [] => []
  | c :: cs =>
    if isWhitespaceChar c && prevWs then controlledCollapse prevWs cs
    else c :: controlledCollapse (isWhitespaceChar c) cs

/-- The generalized collapsing invariant of a `CONTROLLED` bucket: the
accumulated characters extend by the collapse of the new input, seeded
with the whitespace status of the previously accepted character. -/
theorem feedAll_controlled (cs : Str) :
    ∀ b : CharBucket, b.whitespace = WhiteSpaceModes.CONTROLLED →
      (b.feedAll cs).get = b.chars ++ controlledCollapse (wsHead b.lastChar) cs := by
  induction cs with
  | nil => intro b _; simp [CharBucket.feedAll, CharBucket.get, controlledCollapse]
  | cons c cs ih =>
    intro b hb
    have hfeed : b.feedAll (c :: cs) = (b.feed c).feedAll cs := rfl
    by_cases hws : isWhitespaceChar c && wsHead b.lastChar
    · have hbc : b.feed c = b := by
        simp [CharBucket.feed, hb, hws]
      have hprev : wsHead b.lastChar = true := by
        have h2 := (Bool.and_eq_true _ _).mp hws
        exact h2.2
      have hcw : isWhitespaceChar c = true := ((Bool.and_eq_true _ _).mp hws).1
      rw [hfeed, hbc, ih b hb]
      simp [controlledCollapse, hprev, hcw]
    · have hbc : b.feed c = { b with chars := b.chars ++ [c], lastChar := [c] } := by
        simp [CharBucket.feed, hb, hws]
      rw [hfeed, hbc, ih _ (by simp [hb])]
      simp only [controlledCollapse]
      rw [if_neg (by simpa [wsHead] using hws)]
      simp [wsHead]

/-- C8.  In `CONTROLLED` mode, feeding characters one at a time — also
when split across separate `feed` calls, which compose — yields exactly
the input with every whitespace character dropped when the previously
accepted character was whitespace (each maximal whitespace run keeps only
its first character), carrying the previous-character state across call
boundaries. -/
theorem charBucket_controlled_collapses_runs (xs ys : Str) :
    (CharBucket.init WhiteSpaceModes.CONTROLLED).feedAll (xs ++ ys) =
      ((CharBucket.init WhiteSpaceModes.CONTROLLED).feedAll xs).feedAll ys ∧
    ((CharBucket.init WhiteSpaceModes.CONTROLLED).feedAll (xs ++ ys)).get =
      controlledCollapse false (xs ++ ys) := by
  constructor
  · simp [CharBucket.feedAll, List.foldl_append]
  · simpa [CharBucket.init, wsHead] using
      feedAll_controlled (xs ++ ys) (CharBucket.init WhiteSpaceModes.CONTROLLED) rfl

/-- `feedChar` only touches the paren counter and the buckets: the flags,
props and current prop are unchanged. -/
theorem TagStatement.feedChar_fields (s : TagStatement) (c : Char) :
    (s.feedChar c).started = s.started ∧ (s.feedChar c).ended = s.ended ∧
    (s.feedChar c).currentProp = s.currentProp ∧ (s.feedChar c).seekable = s.seekable ∧
    (s.feedChar c).props = s.props := by
  unfold TagStatement.feedChar
  cases hcp : s.currentProp <;>
    by_cases hco : c == parenOpen <;> by_cases hcc : c == parenClose <;>
      simp [hco, hcc, hcp]

/-- `feedChar` on a non-paren character leaves the paren counter alone. -/
theorem TagStatement.feedChar_parens (s : TagStatement) (c : Char)
    (hco : (c == parenOpen) = false) (hcc : (c == parenClose) = false) :
    (s.feedChar c).internalParens = s.internalParens := by
  unfold TagStatement.feedChar
  cases hcp : s.currentProp <;> simp [hco, hcc, hcp]

/-- `startStatement`, `endStatement`, `feedChar` and `setProp` preserve
and propagate the `started`/`ended` flags as follows: `feedSeekableChars`
keeps `started` monotone and only sets `ended` through `endStatement`,
which requires `started`. -/
theorem TagStatement.feedSeekableChars_flags (cs : Str) :
    ∀ s s2 : TagStatement, s.feedSeekableChars cs = Except.ok s2 →
      (s.started = true → s2.started = true) ∧ (s2.ended = true → s2.started = true ∨ s.ended = true) := by
  induction cs with
  | nil =>
    intro s s2 h
    simp only [TagStatement.feedSeekableChars] at h
    cases h
    exact ⟨fun h => h, fun h => Or.inr h⟩
  | cons c rest ih =>
    intro s s2 h
    simp only [TagStatement.feedSeekableChars] at h
    by_cases h1 : s.isStartOfStatement c
    · rw [if_pos h1] at h
      have := ih s.startStatement s2 h
      refine ⟨fun _ => this.1 ?_, fun he => ?_⟩
      · simp [TagStatement.startStatement]
      · rcases this.2 he with h2 | h2
        · exact Or.inl h2
        · simp only [TagStatement.startStatement, TagStatement.setProp] at h2
          revert h2
          cases s.currentProp <;> intro h2 <;> exact Or.inr h2
    · rw [if_neg h1] at h
      by_cases h2 : s.isEndOfStatement c
      · rw [if_pos h2] at h
        by_cases h3 : rest.isEmpty
        · rw [if_pos h3] at h
          simp only [TagStatement.endStatement] at h
          by_cases h4 : !s.started
          · rw [if_pos h4] at h; cases h
          · rw [if_neg h4] at h
            cases h
            have hs : s.started = true := by
              revert h4; cases hst : s.started <;> simp
            constructor
            · intro _
              simp only [TagStatement.setProp]
              cases s.currentProp <;> exact hs
            · intro _
              left
              simp only [TagStatement.setProp]
              cases s.currentProp <;> exact hs
        · rw [if_neg h3] at h; cases h
      · rw [if_neg h2] at h
        have := ih (s.feedChar c) s2 h
        have hfc1 : (s.feedChar c).started = s.started := (TagStatement.feedChar_fields s c).1
        have hfc2 : (s.feedChar c).ended = s.ended := (TagStatement.feedChar_fields s c).2.1
        refine ⟨fun hs => this.1 (by rw [hfc1]; exact hs), fun he => ?_⟩
        rcases this.2 he with h4 | h4
        · exact Or.inl h4
        · rw [hfc2] at h4; exact Or.inr h4

/-- `TagStatement.feed` preserves the invariant `ended → started` and is
monotone in `started`. -/
theorem TagStatement.feed_flags (s s2 : TagStatement) (line : Str)
    (h : s.feed line = Except.ok s2) (hinv : s.ended = true → s.started = true) :
    (s2.ended = true → s2.started = true) ∧ (s.started = true → s2.started = true) := by
  simp only [TagStatement.feed] at h
  by_cases he : s.ended
  · rw [if_pos he] at h; cases h
  · rw [if_neg he] at h
    have hrr1 : (s.recordRaw line).started = s.started := by
      simp only [TagStatement.recordRaw]
      by_cases hr : s.props.raw.isEmpty <;> simp [hr]
    have hrr2 : (s.recordRaw line).ended = s.ended := by
      simp only [TagStatement.recordRaw]
      by_cases hr : s.props.raw.isEmpty <;> simp [hr]
    by_cases hsk : !(s.recordRaw line).seekable
    · rw [if_pos hsk] at h
      cases h
      simp [TagStatement.feedNonSeekable]
    · rw [if_neg hsk] at h
      have hflags := TagStatement.feedSeekableChars_flags line (s.recordRaw line) s2 h
      have hne : s.ended = false := by revert he; cases s.ended <;> simp
      constructor
      · intro h2
        rcases hflags.2 h2 with h3 | h3
        · exact h3
        · rw [hrr2, hne] at h3; cases h3
      · intro hs
        exact hflags.1 (by rw [hrr1]; exact hs)

/-- The reachable states of a `TagStatement`: the freshly constructed
statement, and anything obtained from a reachable state by a successful
`feed`. -/
inductive TagReachable : TagStatement → Prop where
  | init : ∀ (pos : Nat) (seekable : Bool), TagReachable (TagStatement.init pos seekable)
  | step : ∀ (s : TagStatement) (line : Str) (s2 : TagStatement),
      TagReachable s → s.feed line = Except.ok s2 → TagReachable s2

/-- In every reachable `TagStatement`, `ended` implies `started`. -/
theorem TagReachable.ended_imp_started {s : TagStatement} (h : TagReachable s) :
    s.ended = true → s.started = true := by
  induction h with
  | init pos seekable => intro h; simp [TagStatement.init] at h
  | step s line s2 _ hfeed ih => exact (TagStatement.feed_flags s s2 line hfeed ih).1

/-- C3 (counterexample).  Feeding `if` (a tag line with no parenthesis
yet) to a fresh seekable `TagStatement` reaches a state with
`started = false`, `ended = false` in which `seeking` is `true` while
`started AND NOT ended` is `false`, so `seeking` is not
`started AND NOT ended`. -/
theorem tagStatement_seeking_counterexample :
    ((TagStatement.init 1 true).feed "if".toList).map
      (fun s => (s.seeking, s.started && !s.ended)) = Except.ok (true, false) := by
  rfl

/-- C3 (amended).  In every reachable `TagStatement` state, `seeking` is
false exactly when the statement has ended: `seeking` is computed as
`NOT started OR NOT ended`, and reachable states satisfy
`ended → started`, so `seeking = NOT ended` on reachable states — a
constructed-but-not-yet-started statement is already seeking. -/
theorem tagStatement_seeking_iff_not_ended (s : TagStatement) (h : TagReachable s) :
    s.seeking = false ↔ s.ended = true := by
  simp only [TagStatement.seeking]
  constructor
  · intro hfalse
    cases hst : s.started <;> cases hen : s.ended <;> simp [hst, hen] at hfalse ⊢
  · intro hen
    have hst := TagReachable.ended_imp_started h hen
    simp [hst, hen]

/-- Witness for C3: the freshly constructed statement is reachable and the
amended equivalence evaluates on it. -/
theorem tagStatement_seeking_iff_not_ended_witness :
    (TagStatement.init 2 true).seeking = false ↔ (TagStatement.init 2 true).ended = true :=
  tagStatement_seeking_iff_not_ended (TagStatement.init 2 true) (TagReachable.init 2 true)

/-- `setProp` only touches `props`: the flags, paren counter and current
prop are unchanged (and the untouched prop fields survive). -/
theorem TagStatement.setProp_fields (s : TagStatement) :
    (s.setProp).started = s.started ∧ (s.setProp).ended = s.ended ∧
    (s.setProp).currentProp = s.currentProp ∧ (s.setProp).internalParens = s.internalParens := by
  unfold TagStatement.setProp
  cases hcp : s.currentProp <;> simp [hcp]

/-- `recordRaw` only touches `props.raw`. -/
theorem TagStatement.recordRaw_fields (s : TagStatement) (line : Str) :
    (s.recordRaw line).started = s.started ∧ (s.recordRaw line).ended = s.ended ∧
    (s.recordRaw line).currentProp = s.currentProp ∧
    (s.recordRaw line).internalParens = s.internalParens ∧
    (s.recordRaw line).seekable = s.seekable ∧
    (s.recordRaw line).props.name = s.props.name := by
  unfold TagStatement.recordRaw
  by_cases hr : s.props.raw.isEmpty <;> simp [hr]

/-- The scan of `feedSeekable` over `cs ++ ')' :: rest`, where `cs` holds
no parenthesis and the statement is started with paren depth zero: the
`)` is matched as the end of the statement, and the outcome is decided by
whether `rest` is empty — any remaining characters (whitespace included)
raise the trailing-content error. -/
theorem TagStatement.scan_closing (cs : Str) :
    ∀ (s : TagStatement) (rest : Str),
      s.started = true → s.ended = false → s.currentProp = TagPropKey.jsArg →
      s.internalParens = 0 →
      (∀ c ∈ cs, (c == parenOpen) = false ∧ (c == parenClose) = false) →
      (rest = [] → ∃ s2, s.feedSeekableChars (cs ++ parenClose :: rest) = Except.ok s2 ∧
        s2.ended = true) ∧
      (rest ≠ [] → s.feedSeekableChars (cs ++ parenClose :: rest) =
        Except.error (trailingErrMsg rest)) := by
  induction cs with
  | nil =>
    intro s rest hst hen hcp hip _
    have hnostart : s.isStartOfStatement parenClose = false := by
      simp [TagStatement.isStartOfStatement, hcp, parenOpen, parenClose]
    have hend : s.isEndOfStatement parenClose = true := by
      simp [TagStatement.isEndOfStatement, hip]
    constructor
    · intro hrest
      subst hrest
      refine ⟨({ s with ended := true }).setProp, ?_, ?_⟩
      · simp only [List.nil_append, TagStatement.feedSeekableChars, hnostart, hend,
          Bool.false_eq_true, if_false, if_true, List.isEmpty_nil, TagStatement.endStatement,
          hst]
        simp
      · have := (TagStatement.setProp_fields { s with ended := true }).2.1
        simpa using this
    · intro hrest
      simp only [List.nil_append, TagStatement.feedSeekableChars, hnostart, hend,
        Bool.false_eq_true, if_false, if_true]
      rw [if_neg (by simpa [List.isEmpty_iff] using hrest)]
  | cons c cs ih =>
    intro s rest hst hen hcp hip hcs
    have hc := hcs c (List.mem_cons_self c cs)
    have hnostart : s.isStartOfStatement c = false := by
      simp [TagStatement.isStartOfStatement, hc.1]
    have hnoend : s.isEndOfStatement c = false := by
      simp [TagStatement.isEndOfStatement, hc.2]
    have hstep : s.feedSeekableChars ((c :: cs) ++ parenClose :: rest) =
        (s.feedChar c).feedSeekableChars (cs ++ parenClose :: rest) := by
      simp [List.cons_append, TagStatement.feedSeekableChars, hnostart, hnoend]
    have hf := TagStatement.feedChar_fields s c
    have hp := TagStatement.feedChar_parens s c hc.1 hc.2
    have := ih (s.feedChar c) rest (hf.1 ▸ hst) (hf.2.1 ▸ hen) (hf.2.2.1 ▸ hcp)
      (hp ▸ hip) (fun x hx => hcs x (List.mem_cons_of_mem c hx))
    rw [hstep]
    exact this

/-- C4 (amended).  `TagStatement.feed` on a started seekable statement at
paren depth zero, fed a line whose closing `)` is followed by `rest`,
raises the trailing-content error exactly when `rest` is non-empty —
regardless of whether `rest` is whitespace; when nothing at all follows
the `)`, the statement completes. -/
theorem tagStatement_feed_trailing_iff (s : TagStatement) (cs rest : Str)
    (hsk : s.seekable = true) (hst : s.started = true) (hen : s.ended = false)
    (hcp : s.currentProp = TagPropKey.jsArg) (hip : s.internalParens = 0)
    (hcs : ∀ c ∈ cs, (c == parenOpen) = false ∧ (c == parenClose) = false) :
    (rest = [] → ∃ s2, s.feed (cs ++ parenClose :: rest) = Except.ok s2 ∧ s2.ended = true) ∧
    (rest ≠ [] → s.feed (cs ++ parenClose :: rest) = Except.error (trailingErrMsg rest)) := by
  have hr := TagStatement.recordRaw_fields s (cs ++ parenClose :: rest)
  have hfeed : s.feed (cs ++ parenClose :: rest) =
      (s.recordRaw (cs ++ parenClose :: rest)).feedSeekableChars (cs ++ parenClose :: rest) := by
    simp only [TagStatement.feed, hen, Bool.false_eq_true, if_false]
    rw [if_neg (by simp [hr.2.2.2.2.1, hsk])]
  have := TagStatement.scan_closing cs (s.recordRaw (cs ++ parenClose :: rest)) rest
    (hr.1 ▸ hst) (hr.2.1 ▸ hen) (hr.2.2.1 ▸ hcp) (hr.2.2.2.1 ▸ hip) hcs
  rw [hfeed]
  exact this

/-- Witness for C4: a concrete started statement fed `x) ` (trailing
whitespace after the closing paren) raises the trailing-content error. -/
theorem tagStatement_feed_trailing_iff_witness :
    (⟨1, true, true, false, ⟨"if".toList, [], "if(".toList⟩, TagPropKey.jsArg, 0,
      ⟨⟨WhiteSpaceModes.NONE, "if".toList, []⟩, ⟨WhiteSpaceModes.CONTROLLED, [], []⟩⟩⟩ :
        TagStatement).feed ("x".toList ++ parenClose :: " ".toList) =
      Except.error (trailingErrMsg " ".toList) :=
  (tagStatement_feed_trailing_iff _ "x".toList " ".toList rfl rfl rfl rfl rfl
    (by decide)).2 (by simp)

/-- C4 (counterexample).  A seekable tag statement fed a line whose
closing `)` is followed by a single space — nothing but whitespace — does
not complete: it raises the trailing-content error, contradicting the
claim that whitespace-only trailing content is accepted. -/
theorem tagStatement_trailing_whitespace_errors :
    (TagStatement.init 1 true).feed "if(x) ".toList =
      Except.error (trailingErrMsg " ".toList) ∧
    (∀ c ∈ " ".toList, isWhitespaceChar c = true) := by
  exact ⟨rfl, by decide⟩

/-- `feedCurrentChar` only touches the brace counter and the buckets. -/
theorem MustacheStatement.feedCurrentChar_fields (s : MustacheStatement) (c : Char) :
    (s.feedCurrentChar c).started = s.started ∧ (s.feedCurrentChar c).ended = s.ended ∧
    (s.feedCurrentChar c).props = s.props ∧
    (s.feedCurrentChar c).currentProp = s.currentProp := by
  unfold MustacheStatement.feedCurrentChar
  cases hcp : s.currentProp <;>
    by_cases h1 : c == braceOpen <;> by_cases h2 : c == braceClose <;> simp [h1, h2, hcp]

/-- `feedCurrentChar` on a closing brace decrements the brace counter. -/
theorem MustacheStatement.feedCurrentChar_braceClose (s : MustacheStatement) :
    (s.feedCurrentChar braceClose).internalBraces = s.internalBraces - 1 := by
  unfold MustacheStatement.feedCurrentChar
  cases hcp : s.currentProp <;> simp [hcp, braceOpen, braceClose]

/-- C5 (amended).  A `}` read while the brace depth is zero but not
followed by the rest of the full closing run of the statement's opening
kind (one more `}` for `mustache`, two more for `emustache`) does not end
the statement — the closing is rejected, no lookahead characters are
consumed and scanning continues — but the rejected `}` falls through to
the depth bookkeeping and decrements the internal brace counter to `-1`,
so no later closing run can end the statement unless an opening `{` first
restores the counter to zero. -/
theorem mustache_stray_close_rejected (s : MustacheStatement) (chars : Str)
    (hst : s.started = true) (hen : s.ended = false)
    (hname : s.props.name = mustacheName ∨ s.props.name = emustacheName)
    (hbr : s.internalBraces = 0)
    (hcp : s.currentProp = MustachePropKey.jsArg)
    (hrunM : s.props.name = mustacheName →
      chars = [] ∨ ∃ c rest, chars = c :: rest ∧ (c == braceClose) = false)
    (hrunE : s.props.name = emustacheName →
      chars.length ≤ 1 ∨
        ∃ c c2 rest2, chars = c :: c2 :: rest2 ∧
          (c == braceClose && c2 == braceClose) = false) :
    ∃ s2, s.processChar chars braceClose = (s2, chars) ∧ s2.ended = false ∧
      s2.started = true ∧ s2.internalBraces = -1 ∧
      s2.props.raw = s.props.raw ++ [braceClose] := by
  have hs1 : (if s.currentProp == MustachePropKey.jsArg then
      { s with props := { s.props with raw := s.props.raw ++ [braceClose] } } else s) =
      { s with props := { s.props with raw := s.props.raw ++ [braceClose] } } := by
    rw [if_pos (by simp [hcp])]
  set s1 : MustacheStatement :=
    { s with props := { s.props with raw := s.props.raw ++ [braceClose] } } with hs1def
  have hclosing : s1.isClosing chars braceClose = (false, s1, chars) := by
    unfold MustacheStatement.isClosing
    rw [if_neg (by simp [hs1def, hbr])]
    rcases hname with hname | hname
    · have hnotE : (s1.props.name == emustacheName && decide (2 ≤ chars.length)) = false := by
        simp only [hs1def]
        simp [hname, mustacheName, emustacheName]
      rw [if_neg (by simp [hnotE])]
      by_cases hM : (s1.props.name == mustacheName && decide (1 ≤ chars.length)) = true
      · rw [if_pos hM]
        rcases hrunM hname with hnil | ⟨c, rest, hchars, hc⟩
        · subst hnil; rfl
        · subst hchars
          simp [hc]
      · rw [if_neg hM]
    · by_cases hE : (s1.props.name == emustacheName && decide (2 ≤ chars.length)) = true
      · rw [if_pos hE]
        rcases hrunE hname with hlen | ⟨c, c2, rest2, hchars, hc⟩
        · exfalso
          have := ((Bool.and_eq_true _ _).mp hE).2
          simp at this
          omega
        · subst hchars
          simp [hc]
      · rw [if_neg hE]
        have hnotM : (s1.props.name == mustacheName && decide (1 ≤ chars.length)) = false := by
          simp only [hs1def]
          simp [hname, mustacheName, emustacheName]
        rw [if_neg (by simp [hnotM])]
  have hfci := MustacheStatement.feedCurrentChar_fields s1 braceClose
  have hfcb := MustacheStatement.feedCurrentChar_braceClose s1
  refine ⟨s1.feedCurrentChar braceClose, ?_, ?_, ?_, ?_, ?_⟩
  · unfold MustacheStatement.processChar
    rw [hs1]
    rw [if_neg (by simp [hs1def, hst])]
    unfold MustacheStatement.closingOrFeed
    rw [if_pos (by simp [hs1def, hst, hen])]
    rw [hclosing]
  · rw [hfci.2.1]; exact hen
  · rw [hfci.1]; exact hst
  · rw [hfcb]
    have hb2 : s1.internalBraces = s.internalBraces := rfl
    rw [hb2, hbr]
    decide
  · rw [hfci.2.2.1]

/-- Witness for C5, one instance per opening kind: a concrete started
`mustache` statement at depth zero reading a `}` whose lookahead is `x`,
and a concrete started `emustache` statement at depth zero reading a `}`
whose lookahead is `}x` (only one of the two further `}` required): both
reject the closing, keep the remaining characters, and drop the depth
counter to `-1`. -/
theorem mustache_stray_close_rejected_witness :
    (∃ s2, (⟨1, true, false, ⟨mustacheName, [], "\x7b\x7b a".toList, [], []⟩,
        MustachePropKey.jsArg, 0,
        ⟨⟨WhiteSpaceModes.CONTROLLED, " a".toList, "a".toList⟩,
         ⟨WhiteSpaceModes.ALL, [], []⟩, ⟨WhiteSpaceModes.ALL, [], []⟩⟩⟩ :
          MustacheStatement).processChar "x".toList braceClose = (s2, "x".toList) ∧
      s2.ended = false ∧ s2.started = true ∧ s2.internalBraces = -1 ∧
      s2.props.raw = "\x7b\x7b a".toList ++ [braceClose]) ∧
    (∃ s2, (⟨1, true, false, ⟨emustacheName, [], "\x7b\x7b\x7b a".toList, [], []⟩,
        MustachePropKey.jsArg, 0,
        ⟨⟨WhiteSpaceModes.CONTROLLED, " a".toList, "a".toList⟩,
         ⟨WhiteSpaceModes.ALL, [], []⟩, ⟨WhiteSpaceModes.ALL, [], []⟩⟩⟩ :
          MustacheStatement).processChar "\x7dx".toList braceClose = (s2, "\x7dx".toList) ∧
      s2.ended = false ∧ s2.started = true ∧ s2.internalBraces = -1 ∧
      s2.props.raw = "\x7b\x7b\x7b a".toList ++ [braceClose]) :=
  ⟨mustache_stray_close_rejected _ "x".toList rfl rfl (Or.inl rfl) rfl rfl
      (fun _ => Or.inr ⟨'x', [], rfl, by decide⟩)
      (fun h => absurd h (by decide)),
   mustache_stray_close_rejected _ "\x7dx".toList rfl rfl (Or.inr rfl) rfl rfl
      (fun h => absurd h (by decide))
      (fun _ => Or.inr ⟨braceClose, 'x', [], by decide, by decide⟩)⟩

/-- C5 (counterexample).  Feeding the single line `{{ a } b }}` — a stray
`}` inside the expression followed by a later complete `}}` closing run —
leaves the statement unended with brace depth `-3`: the stray `}` is not
tolerated, the statement never closes. -/
theorem mustache_stray_close_not_tolerated :
    ((MustacheStatement.init 1).feed "\x7b\x7b a \x7d b \x7d\x7d".toList).map
      (fun s => (s.ended, s.internalBraces)) = Except.ok (false, -3) := by
  decide

/-- C10.  When a tag statement completes, the tokenizer reads
`tagsDef[props.name].block` unchecked.  For a non-seekable tag the
collected name is the entire trimmed fed line, so whenever that string is
not a key of the table the lookup yields nothing and processing fails with
the runtime type error — and end-to-end, parsing `@include header` with a
table that only knows `include` fails the same way. -/
theorem tag_lookup_requires_known_name :
    (∀ (t : Tokenizer) (bs : TagStatement) (text : Str),
      bs.ended = false → bs.seekable = false →
      t.tagsDef.lookup (trimStr text) = none →
      t.feedTextToBlockStatement bs text = Except.error tagLookupTypeErrMsg) ∧
    Tokenizer.parse "@include header".toList [("include".toList, ⟨false, false⟩)] =
      Except.error tagLookupTypeErrMsg := by
  constructor
  · intro t bs text hen hsk hlk
    have hr := TagStatement.recordRaw_fields bs text
    have hfeed : bs.feed text = Except.ok ((bs.recordRaw text).feedNonSeekable text) := by
      simp only [TagStatement.feed, hen, Bool.false_eq_true, if_false]
      rw [if_pos (by simp [hr.2.2.2.2.1, hsk])]
    have hseek : ((bs.recordRaw text).feedNonSeekable text).seeking = false := by
      simp [TagStatement.feedNonSeekable, TagStatement.seeking]
    have hname : ((bs.recordRaw text).feedNonSeekable text).props.name = trimStr text := by
      simp [TagStatement.feedNonSeekable]
    simp only [Tokenizer.feedTextToBlockStatement, hfeed, hseek, Bool.false_eq_true, if_false,
      hname, hlk]
  · rfl

/-- Witness for C10: the general statement applied to a concrete
tokenizer, statement and line whose trimmed text is not a table key. -/
theorem tag_lookup_requires_known_name_witness :
    (Tokenizer.init [("include".toList, ⟨false, false⟩)]).feedTextToBlockStatement
      (TagStatement.init 1 false) "include header".toList =
      Except.error tagLookupTypeErrMsg :=
  tag_lookup_requires_known_name.1 _ _ _ rfl rfl (by decide)

/-- The expected output of the tokenizer on plain lines: one `Raw` node
per line, each immediately followed by a `Newline` node with the same
1-indexed line number, the `Raw` value being the line unchanged. -/
def rawLines : List Str → Nat → List Node
  | [], _ => []
  | l :: ls, i => Node.raw l i :: Node.newline i :: rawLines ls (i + 1)

/-- A line that matches no known tag, is no closing tag (the stack is
empty) and holds no mustache is consumed as a `Raw` node plus a `Newline`
node. -/
theorem Tokenizer.processText_plain (fuel : Nat) (t : Tokenizer) (text : Str)
    (hbs : t.blockStatement = none) (hms : t.mustacheStatement = none)
    (hot : t.openedTags = []) (htag : Tokenizer.getTag t.tagsDef text = none)
    (hmus : hasMustache text = false) :
    Tokenizer.processText (fuel + 1) t text =
      Except.ok { t with tokens := t.tokens ++ [Node.raw text t.line, Node.newline t.line] } := by
  have hcl : t.isClosingTag text = false := by
    simp [Tokenizer.isClosingTag, hot]
  simp [Tokenizer.processText, hbs, hms, htag, hmus, hcl, Tokenizer.consumeNode, hot]

/-- Induction over plain lines: every line becomes its `Raw`/`Newline`
pair, line numbers counting up from the current line. -/
theorem Tokenizer.processLines_plain (lines : List Str) :
    ∀ t : Tokenizer,
      t.blockStatement = none → t.mustacheStatement = none → t.openedTags = [] →
      (∀ l ∈ lines, Tokenizer.getTag t.tagsDef l = none ∧ hasMustache l = false) →
      Tokenizer.processLines t lines =
        Except.ok { t with tokens := t.tokens ++ rawLines lines (t.line + 1),
                           line := t.line + lines.length } := by
  induction lines with
  | nil =>
    intro t _ _ _ _
    simp [Tokenizer.processLines, rawLines]
  | cons l ls ih =>
    intro t hbs hms hot h
    have hl := h l (List.mem_cons_self l ls)
    have hstep := Tokenizer.processText_plain l.length { t with line := t.line + 1 } l
      (by simp [hbs]) (by simp [hms]) (by simp [hot]) (by simpa using hl.1) hl.2
    simp only [Tokenizer.processLines, hstep]
    rw [ih _ (by simp [hbs]) (by simp [hms]) (by simp [hot])
      (fun x hx => by simpa using h x (List.mem_cons_of_mem l hx))]
    first
      | (simp [rawLines, List.append_assoc]; omega)
      | simp [rawLines, List.append_assoc]

/-- C1.  For every template in which no line matches a known tag and no
line contains a mustache opening, `parse` returns exactly one `Raw` node
per input line — its value the original line unchanged — each immediately
followed by a `Newline` node, with 1-indexed line numbers. -/
theorem parse_plain_template (template : Str) (tagsDef : TagsDef)
    (h : ∀ l ∈ splitOnNl template,
      Tokenizer.getTag tagsDef l = none ∧ hasMustache l = false) :
    Tokenizer.parse template tagsDef = Except.ok (rawLines (splitOnNl template) 1) := by
  have hrun := Tokenizer.processLines_plain (splitOnNl template) (Tokenizer.init tagsDef)
    rfl rfl rfl h
  unfold Tokenizer.parse
  rw [hrun]
  simp [Tokenizer.finalize, Tokenizer.init]

/-- Witness for C1: a two-line template with a non-empty tag table but no
tag or mustache content lexes to two `Raw`/`Newline` pairs. -/
theorem parse_plain_template_witness :
    Tokenizer.parse "hello\nworld".toList [("if".toList, ⟨true, true⟩)] =
      Except.ok [Node.raw "hello".toList 1, Node.newline 1,
        Node.raw "world".toList 2, Node.newline 2] :=
  (parse_plain_template "hello\nworld".toList [("if".toList, ⟨true, true⟩)]
    (by decide)).trans rfl

/-- C6.  When the line loop completes with a statement still open and no
block tag on the stack, `parse` raises no error: a still-open tag
statement is emitted as one `Raw` node holding `@` + its accumulated raw
text, a still-open mustache statement as one `Raw` node holding
`textLeft + raw + textRight` (delimiters preserved inside `raw`), each
followed by a `Newline` node. -/
theorem parse_unterminated_recovery :
    (∀ (template : Str) (tagsDef : TagsDef) (t : Tokenizer) (bs : TagStatement),
      Tokenizer.processLines (Tokenizer.init tagsDef) (splitOnNl template) = Except.ok t →
      t.blockStatement = some bs → t.mustacheStatement = none → t.openedTags = [] →
      Tokenizer.parse template tagsDef =
        Except.ok (t.tokens ++ [Node.raw ('@' :: bs.props.raw) t.line, Node.newline t.line])) ∧
    (∀ (template : Str) (tagsDef : TagsDef) (t : Tokenizer) (ms : MustacheStatement),
      Tokenizer.processLines (Tokenizer.init tagsDef) (splitOnNl template) = Except.ok t →
      t.blockStatement = none → t.mustacheStatement = some ms → t.openedTags = [] →
      Tokenizer.parse template tagsDef =
        Except.ok (t.tokens ++
          [Node.raw (ms.props.textLeft ++ ms.props.raw ++ ms.props.textRight) t.line,
           Node.newline t.line])) := by
  constructor
  · intro template tagsDef t bs hrun hbs hms hot
    unfold Tokenizer.parse
    rw [hrun]
    simp [Tokenizer.finalize, hbs, hms, Tokenizer.consumeNode, hot, List.append_assoc]
  · intro template tagsDef t ms hrun hbs hms hot
    unfold Tokenizer.parse
    rw [hrun]
    simp [Tokenizer.finalize, hbs, hms, Tokenizer.consumeNode, hot, List.append_assoc]

/-- Witness for C6: the unterminated `@if(username` template parses
without error to the single `Raw("@if(username")` node plus `Newline`. -/
theorem parse_unterminated_recovery_witness :
    Tokenizer.parse "@if(username".toList [("if".toList, ⟨true, true⟩)] =
      Except.ok [Node.raw "@if(username".toList 1, Node.newline 1] :=
  (parse_unterminated_recovery.1 "@if(username".toList [("if".toList, ⟨true, true⟩)]
    _ _ rfl rfl rfl rfl).trans rfl

/-- C9.  When the line loop completes with the open-tag stack non-empty,
`parse` raises no error and returns exactly the root token list: the
end-of-input recovery only flushes open statements (and with a non-empty
stack even those land in the doomed block's children), never the open-tag
stack, so the still-open block and everything consumed into its children
are absent from the result. -/
theorem parse_discards_open_stack (template : Str) (tagsDef : TagsDef) (t : Tokenizer)
    (hrun : Tokenizer.processLines (Tokenizer.init tagsDef) (splitOnNl template) = Except.ok t)
    (hne : t.openedTags ≠ []) :
    Tokenizer.parse template tagsDef = Except.ok t.tokens := by
  unfold Tokenizer.parse
  rw [hrun]
  rcases hot : t.openedTags with _ | ⟨top, rest⟩
  · exact absurd hot hne
  · rcases hbs : t.blockStatement with _ | bs <;>
      rcases hms : t.mustacheStatement with _ | ms <;>
        simp [Tokenizer.finalize, hbs, hms, Tokenizer.consumeNode, hot]

/-- Witness for C9: a block tag whose `@endif` never arrives: the `Block`
node and the `hello` raw line consumed into its children are absent — the
parse succeeds with an empty token list. -/
theorem parse_discards_open_stack_witness :
    Tokenizer.parse "@if(x)\nhello".toList [("if".toList, ⟨true, true⟩)] = Except.ok [] :=
  (parse_discards_open_stack "@if(x)\nhello".toList [("if".toList, ⟨true, true⟩)]
    ⟨[("if".toList, ⟨true, true⟩)], [],
      [⟨1, ⟨"if".toList, "x".toList, "if(x)".toList⟩,
        [Node.newline 1, Node.raw "hello".toList 2, Node.newline 2]⟩],
      none, none, 2⟩ rfl (by simp)).trans rfl

/-- Join lines with the `'\n'` terminator (the inverse of `splitOnNl`). -/
def joinLines : List Str → Str
  | [] => []
  | [l] => l
  | l :: l2 :: ls => l ++ '\n' :: joinLines (l2 :: ls)

/-- Splitting a newline-free line yields that single line. -/
theorem splitOnNl_no_nl (l : Str) (h : '\n' ∉ l) : splitOnNl l = [l] := by
  induction l with
  | nil => rfl
  | cons c rest ih =>
    have hc : (c == '\n') = false := by
      simp only [List.mem_cons, not_or] at h
      exact beq_eq_false_iff_ne.mpr fun e => h.1 e.symm
    have hrest : '\n' ∉ rest := by
      simp only [List.mem_cons, not_or] at h
      exact h.2
    simp [splitOnNl, hc, ih hrest]

/-- Splitting after a newline-free first line peels that line off. -/
theorem splitOnNl_append (l rest : Str) (h : '\n' ∉ l) :
    splitOnNl (l ++ '\n' :: rest) = l :: splitOnNl rest := by
  induction l with
  | nil => simp [splitOnNl]
  | cons c cs ih =>
    have hc : (c == '\n') = false := by
      simp only [List.mem_cons, not_or] at h
      exact beq_eq_false_iff_ne.mpr fun e => h.1 e.symm
    have hcs : '\n' ∉ cs := by
      simp only [List.mem_cons, not_or] at h
      exact h.2
    have := ih hcs
    simp only [List.cons_append, splitOnNl, hc, Bool.false_eq_true, if_false, this]
    cases hsp : splitOnNl (cs ++ '\n' :: rest) with
    | nil => rw [hsp] at this; cases this
    | cons a as =>
      rw [hsp] at this
      cases this
      rfl

/-- `splitOnNl` inverts `joinLines` on non-empty lists of newline-free
lines. -/
theorem splitOnNl_joinLines : ∀ ls : List Str, ls ≠ [] → (∀ l ∈ ls, '\n' ∉ l) →
    splitOnNl (joinLines ls) = ls := by
  intro ls
  induction ls with
  | nil => intro h; exact absurd rfl h
  | cons l ls ih =>
    intro _ h
    cases ls with
    | nil =>
      simp only [joinLines]
      exact splitOnNl_no_nl l (h l (List.mem_cons_self l []))
    | cons l2 ls2 =>
      simp only [joinLines]
      rw [splitOnNl_append l _ (h l (List.mem_cons_self l _))]
      rw [ih (by simp) (fun x hx => h x (List.mem_cons_of_mem l hx))]

/-- `processLines` over an appended line list runs the two parts in
sequence. -/
theorem Tokenizer.processLines_append (xs : List Str) :
    ∀ (ys : List Str) (t : Tokenizer),
      Tokenizer.processLines t (xs ++ ys) =
        match Tokenizer.processLines t xs with
        | Except.error e => Except.error e
        | Except.ok t2 => Tokenizer.processLines t2 ys := by
  induction xs with
  | nil => intro ys t; rfl
  | cons x xs ih =>
    intro ys t
    simp only [List.cons_append, Tokenizer.processLines]
    cases hstep : Tokenizer.processText (x.length + 1) { t with line := t.line + 1 } x with
    | error e => rfl
    | ok t2 => exact ih ys t2

/-- The tag-definition table holding the single block tag `if`. -/
def ifTagsDef : TagsDef := [("if".toList, ⟨true, true⟩)]

/-- The properties every `@if(a)` block in the nesting template carries. -/
def ifProps : TagProps := ⟨"if".toList, "a".toList, "if(a)".toList⟩

/-- The expected token tree for `k` nested `@if(a)` blocks whose outermost
block opens at line `i`: each inner block is a child of the next outer
block, preceded by the opening line's `Newline` and followed by the
`Newline` of the line that closed it. -/
def ifTree : Nat → Nat → Node
  | 0, i => Node.newline i
  | 1, i => Node.block i ifProps [Node.newline i]
  | (k+2), i => Node.block i ifProps
      [Node.newline i, ifTree (k+1) (i+1), Node.newline (i + 2*(k+1))]

/-- Opening one `@if(a)` line pushes a fresh block (holding its `Newline`)
onto the open-tag stack and leaves everything else alone. -/
theorem Tokenizer.processText_open_if (fuel : Nat) (tokens : List Node)
    (stack : List OpenTag) (line : Nat) :
    Tokenizer.processText (fuel + 1) ⟨ifTagsDef, tokens, stack, none, none, line⟩
      "@if(a)".toList =
      Except.ok ⟨ifTagsDef, tokens,
        ⟨line, ifProps, [Node.newline line]⟩ :: stack, none, none, line⟩ := rfl

/-- Closing line `@endif` against a stack whose top is named `if` pops the
top block and consumes it (followed by a `Newline`) into the remaining
state. -/
theorem Tokenizer.processText_close_if (fuel bl : Nat) (bjs braw : Str) (bch : List Node)
    (tokens : List Node) (stack : List OpenTag) (line : Nat) :
    Tokenizer.processText (fuel + 1)
      ⟨ifTagsDef, tokens, ⟨bl, ⟨"if".toList, bjs, braw⟩, bch⟩ :: stack, none, none, line⟩
      "@endif".toList =
      Except.ok (Tokenizer.consumeNode
        (Tokenizer.consumeNode ⟨ifTagsDef, tokens, stack, none, none, line⟩
          (Node.block bl ⟨"if".toList, bjs, braw⟩ bch)) (Node.newline line)) := rfl

/-- One unfolding step of the `processLines` loop. -/
theorem Tokenizer.processLines_cons (t : Tokenizer) (l : Str) (ls : List Str) :
    Tokenizer.processLines t (l :: ls) =
      match Tokenizer.processText (l.length + 1) { t with line := t.line + 1 } l with
      | Except.error e => Except.error e
      | Except.ok t2 => Tokenizer.processLines t2 ls := rfl

/-- The processLines run over `k+1` opening lines followed by `k+1`
matching closing lines: the open-tag stack returns to its starting value
and exactly the completed nested tree and the final `Newline` are consumed
into the surrounding state. -/
theorem Tokenizer.processLines_nested (k : Nat) :
    ∀ (tokens : List Node) (stack : List OpenTag) (line : Nat),
      Tokenizer.processLines ⟨ifTagsDef, tokens, stack, none, none, line⟩
        (List.replicate (k+1) "@if(a)".toList ++ List.replicate (k+1) "@endif".toList) =
        Except.ok (Tokenizer.consumeNode
          (Tokenizer.consumeNode ⟨ifTagsDef, tokens, stack, none, none, line + 2*(k+1)⟩
            (ifTree (k+1) (line+1))) (Node.newline (line + 2*(k+1)))) := by
  induction k with
  | zero =>
    intro tokens stack line
    simp only [List.replicate, List.cons_append, List.nil_append]
    simp only [Tokenizer.processLines, Tokenizer.processText_open_if]
    simp only [ifProps, Tokenizer.processText_close_if]
    rfl
  | succ k ih =>
    intro tokens stack line
    have hsplit : List.replicate (k+2) "@if(a)".toList ++ List.replicate (k+2) "@endif".toList =
        "@if(a)".toList :: ((List.replicate (k+1) "@if(a)".toList ++
          List.replicate (k+1) "@endif".toList) ++ ["@endif".toList]) := by
      rw [show k + 2 = (k+1) + 1 from rfl, List.replicate_succ,
        List.replicate_succ' (k+1) "@endif".toList]
      simp [List.append_assoc]
    rw [hsplit]
    rw [Tokenizer.processLines_cons]
    simp only [Tokenizer.processText_open_if]
    rw [Tokenizer.processLines_append]
    simp only [ih]
    simp only [Tokenizer.consumeNode]
    simp only [Tokenizer.processLines_cons, ifProps, Tokenizer.processText_close_if]
    simp only [Tokenizer.processLines]
    have harith1 : line + 1 + 2 * (k + 1) + 1 = line + 2 * (k + 1 + 1) := by omega
    rw [harith1]
    simp only [ifTree, ifProps]
    rfl

/-- The depth of the expected nested tree is its nesting count. -/
theorem ifTree_depth : ∀ (k i : Nat), nodeDepth (ifTree (k+1) i) = k + 1 := by
  intro k
  induction k with
  | zero => intro i; simp [ifTree, nodeDepth, nodesDepth]
  | succ k ih =>
    intro i
    show nodeDepth (ifTree (k+2) i) = k + 2
    simp only [ifTree, nodeDepth, nodesDepth, ih (i+1)]
    omega

/-- C7.  A template of `N` block-tag openings closed by `N` matching
`@endif` lines in reverse order parses to a single token tree of depth
exactly `N` (plus the final `Newline`): each inner block is a child of the
next outer block, with `Newline` markers recording the opening and closing
lines — the stack pops in exactly the reverse of push order, a closing
line only ever matching the most recently opened tag. -/
theorem parse_nested_blocks (N : Nat) (hN : 1 ≤ N) :
    Tokenizer.parse (joinLines (List.replicate N "@if(a)".toList ++
        List.replicate N "@endif".toList)) ifTagsDef =
      Except.ok [ifTree N 1, Node.newline (2*N)] ∧
    nodeDepth (ifTree N 1) = N := by
  obtain ⟨k, rfl⟩ : ∃ k, N = k + 1 := ⟨N - 1, by omega⟩
  constructor
  · have hlines : splitOnNl (joinLines (List.replicate (k+1) "@if(a)".toList ++
        List.replicate (k+1) "@endif".toList)) =
        List.replicate (k+1) "@if(a)".toList ++ List.replicate (k+1) "@endif".toList := by
      apply splitOnNl_joinLines
      · simp
      · intro l hl
        rcases List.mem_append.mp hl with h | h <;>
          rw [List.eq_of_mem_replicate h] <;> decide
    unfold Tokenizer.parse
    rw [hlines]
    have hrun := Tokenizer.processLines_nested k [] [] 0
    rw [show Tokenizer.init ifTagsDef = ⟨ifTagsDef, [], [], none, none, 0⟩ from rfl]
    rw [hrun]
    simp [Tokenizer.consumeNode, Tokenizer.finalize]
  · exact ifTree_depth k 1

/-- Witness for C7: the depth-2 template. -/
theorem parse_nested_blocks_witness :
    1 ≤ 2 ∧
      (Tokenizer.parse (joinLines (List.replicate 2 "@if(a)".toList ++
          List.replicate 2 "@endif".toList)) ifTagsDef =
        Except.ok [ifTree 2 1, Node.newline (2*2)] ∧
      nodeDepth (ifTree 2 1) = 2) :=
  ⟨by omega, parse_nested_blocks 2 (by omega)⟩

/-- The text a mustache statement has consumed so far, read off its public
props: everything before the opening braces, the raw statement text
(delimiters and inner newlines included), and everything after the closing
braces. -/
def MustacheStatement.consumedText (s : MustacheStatement) : Str :=
  s.props.textLeft ++ s.props.raw ++ s.props.textRight

/-- The text a mustache statement has consumed, read mid-scan (while the
final `setProp` of `feed` may not have run yet): the not-yet-frozen field
lives in its bucket. -/
def MustacheStatement.scanText (s : MustacheStatement) : Str :=
  if s.ended then s.props.textLeft ++ s.props.raw ++ s.internalProps.textRight.chars
  else if s.started then s.props.textLeft ++ s.props.raw
  else s.internalProps.textLeft.chars

/-- The state invariant of the mustache scanner: which prop is being
collected in each phase, which props are still empty, and the whitespace
modes of the verbatim buckets. -/
def MustacheStatement.Inv (s : MustacheStatement) : Prop :=
  (s.started = false → s.props.raw = [] ∧ s.props.textLeft = [] ∧ s.props.textRight = [] ∧
    s.currentProp = MustachePropKey.textLeft ∧ s.ended = false) ∧
  (s.started = true ∧ s.ended = false → s.currentProp = MustachePropKey.jsArg ∧
    s.props.textRight = [] ∧ s.props.raw ≠ []) ∧
  (s.ended = true → s.started = true ∧ s.currentProp = MustachePropKey.textRight) ∧
  (s.ended = false → s.internalProps.textRight.chars = []) ∧
  s.internalProps.textLeft.whitespace = WhiteSpaceModes.ALL ∧
  s.internalProps.textRight.whitespace = WhiteSpaceModes.ALL

/-- A fresh mustache statement satisfies the invariant. -/
theorem MustacheStatement.init_Inv (pos : Nat) : (MustacheStatement.init pos).Inv := by
  refine ⟨?_, ?_, ?_, ?_, rfl, rfl⟩ <;> intro h <;>
    simp_all [MustacheStatement.init, CharBucket.init]

/-- Feeding an `ALL`-mode bucket appends the character verbatim. -/
theorem CharBucket.feed_ALL (b : CharBucket) (c : Char)
    (h : b.whitespace = WhiteSpaceModes.ALL) :
    b.feed c = { b with chars := b.chars ++ [c] } := by
  simp [CharBucket.feed, h]

/-- `CharBucket.feed` never changes the policy. -/
theorem CharBucket.feed_whitespace (b : CharBucket) (c : Char) :
    (b.feed c).whitespace = b.whitespace := by
  unfold CharBucket.feed
  by_cases h1 : b.whitespace = WhiteSpaceModes.CONTROLLED
  · by_cases h2 : isWhitespaceChar c && wsHead b.lastChar <;> simp [h1, h2]
  · by_cases h3 : b.whitespace = WhiteSpaceModes.NONE
    · by_cases h4 : isWhitespaceChar c <;> simp [h1, h3, h4]
    · simp [h1, h3]

/-- `MustacheStatement.setProp` only touches the current prop's public
field: flags, counters, buckets, `raw` and `name` are unchanged. -/
theorem MustacheStatement.setPropM_fields (s : MustacheStatement) :
    (s.setProp).started = s.started ∧ (s.setProp).ended = s.ended ∧
    (s.setProp).currentProp = s.currentProp ∧ (s.setProp).internalProps = s.internalProps ∧
    (s.setProp).props.raw = s.props.raw ∧ (s.setProp).props.name = s.props.name ∧
    (s.setProp).internalBraces = s.internalBraces ∧
    (s.setProp).startPosition = s.startPosition := by
  unfold MustacheStatement.setProp
  cases hcp : s.currentProp <;> simp [hcp]

/-- What `feedCurrentChar` does to each bucket, by current prop. -/
theorem MustacheStatement.feedCurrentChar_buckets (s : MustacheStatement) (c : Char) :
    (s.currentProp = MustachePropKey.textRight →
      (s.feedCurrentChar c).internalProps.textRight = s.internalProps.textRight.feed c ∧
      (s.feedCurrentChar c).internalProps.textLeft = s.internalProps.textLeft) ∧
    (s.currentProp = MustachePropKey.textLeft →
      (s.feedCurrentChar c).internalProps.textLeft = s.internalProps.textLeft.feed c ∧
      (s.feedCurrentChar c).internalProps.textRight = s.internalProps.textRight) ∧
    (s.currentProp = MustachePropKey.jsArg →
      (s.feedCurrentChar c).internalProps.textLeft = s.internalProps.textLeft ∧
      (s.feedCurrentChar c).internalProps.textRight = s.internalProps.textRight) := by
  unfold MustacheStatement.feedCurrentChar
  cases hcp : s.currentProp <;>
    by_cases h1 : c == braceOpen <;> by_cases h2 : c == braceClose <;> simp [h1, h2, hcp]

/-- After the statement has ended, `processChar` consumes nothing from the
lookahead and appends the character verbatim to the `textRight` bucket. -/
theorem MustacheStatement.processChar_ended (s : MustacheStatement) (chars : Str) (c : Char)
    (hen : s.ended = true) (hst : s.started = true)
    (hcp : s.currentProp = MustachePropKey.textRight)
    (hTRall : s.internalProps.textRight.whitespace = WhiteSpaceModes.ALL) :
    s.processChar chars c = (s.feedCurrentChar c, chars) ∧
    (s.feedCurrentChar c).internalProps.textRight.chars =
      s.internalProps.textRight.chars ++ [c] ∧
    (s.feedCurrentChar c).internalProps.textRight.whitespace = WhiteSpaceModes.ALL ∧
    (s.feedCurrentChar c).internalProps.textLeft = s.internalProps.textLeft := by
  have hbeq : (s.currentProp == MustachePropKey.jsArg) = false := by
    rw [hcp]; decide
  have hbuck := (MustacheStatement.feedCurrentChar_buckets s c).1 hcp
  refine ⟨?_, ?_, ?_, hbuck.2⟩
  · simp only [MustacheStatement.processChar, MustacheStatement.closingOrFeed, hbeq,
      Bool.false_eq_true, if_false, hst, hen, Bool.not_true, Bool.and_false]
  · rw [hbuck.1, CharBucket.feed_ALL _ _ hTRall]
  · rw [hbuck.1, CharBucket.feed_whitespace, hTRall]

/-- `isClosing` either rejects (returning the state and lookahead
untouched) or accepts, in which case the consumed run of closing braces is
appended to `raw` and removed from the lookahead. -/
theorem MustacheStatement.isClosing_spec (s : MustacheStatement) (chars : Str) (c : Char) :
    s.isClosing chars c = (false, s, chars) ∨
    ∃ shifted rest, s.isClosing chars c =
        (true, { s with props := { s.props with raw := s.props.raw ++ shifted } }, rest) ∧
      chars = shifted ++ rest ∧ 1 ≤ shifted.length := by
  unfold MustacheStatement.isClosing
  by_cases h1 : (c != braceClose || s.internalBraces != 0) = true
  · left; simp [h1]
  · rw [if_neg h1]
    by_cases h2 : (s.props.name == emustacheName && decide (2 ≤ chars.length)) = true
    · rw [if_pos h2]
      rcases chars with _ | ⟨a, _ | ⟨b, rest⟩⟩
      · simp at h2
      · simp at h2
      · by_cases h3 : (a == braceClose && b == braceClose) = true
        · right
          refine ⟨[braceClose, braceClose], rest, ?_, ?_, by simp⟩
          · simp [h3]
          · have ha : a = braceClose := by
              have := (Bool.and_eq_true _ _).mp h3
              exact beq_iff_eq.mp this.1
            have hb : b = braceClose := by
              have := (Bool.and_eq_true _ _).mp h3
              exact beq_iff_eq.mp this.2
            simp [ha, hb]
        · left; simp [h3]
    · rw [if_neg h2]
      by_cases h4 : (s.props.name == mustacheName && decide (1 ≤ chars.length)) = true
      · rw [if_pos h4]
        rcases chars with _ | ⟨a, rest⟩
        · simp at h4
        · by_cases h5 : (a == braceClose) = true
          · right
            refine ⟨[braceClose], rest, ?_, ?_, by simp⟩
            · simp [h5]
            · have ha : a = braceClose := beq_iff_eq.mp h5
              simp [ha]
          · left; simp [h5]
      · left; simp [h4]

/-- While collecting `jsArg` (started, not ended), `processChar` appends
the character and whatever closing run it consumes to `raw`, consumes that
run from the lookahead, and leaves `textLeft`, `textRight` and the
verbatim buckets untouched; when the statement does not end the current
prop stays `jsArg`, and when it ends at least two characters of the line
were consumed. -/
theorem MustacheStatement.processChar_collecting (s : MustacheStatement) (chars : Str) (c : Char)
    (hen : s.ended = false) (hst : s.started = true)
    (hcp : s.currentProp = MustachePropKey.jsArg) :
    ∃ (s2 : MustacheStatement) (chars2 consumed : Str),
      s.processChar chars c = (s2, chars2) ∧ chars = consumed ++ chars2 ∧
      s2.started = true ∧
      s2.props.textLeft = s.props.textLeft ∧
      s2.props.raw = s.props.raw ++ c :: consumed ∧
      s2.props.textRight = s.props.textRight ∧
      s2.internalProps.textRight = s.internalProps.textRight ∧
      s2.internalProps.textLeft = s.internalProps.textLeft ∧
      (s2.ended = false → s2.currentProp = MustachePropKey.jsArg) ∧
      (s2.ended = true → s2.currentProp = MustachePropKey.textRight ∧
        chars2.length + 1 ≤ chars.length) := by
  have hbeq : (s.currentProp == MustachePropKey.jsArg) = true := by
    rw [hcp]; decide
  set s1 : MustacheStatement :=
    { s with props := { s.props with raw := s.props.raw ++ [c] } } with hs1def
  have heq : s.processChar chars c = s1.closingOrFeed chars c := by
    simp only [MustacheStatement.processChar, hbeq, if_true]
    rw [if_neg (by simp [hs1def, hst])]
  have hcof : s1.closingOrFeed chars c =
      match s1.isClosing chars c with
      | (true, s3, chars3) =>
        ({ s3.setProp with currentProp := MustachePropKey.textRight, ended := true }, chars3)
      | (false, s3, chars3) => (s3.feedCurrentChar c, chars3) := by
    unfold MustacheStatement.closingOrFeed
    rw [if_pos (by simp [hs1def, hst, hen])]
  rcases MustacheStatement.isClosing_spec s1 chars c with hic | ⟨shifted, rest, hic, hsplit, hlen⟩
  · -- rejected: fall through to feedCurrentChar
    have hf := MustacheStatement.feedCurrentChar_fields s1 c
    have hb := (MustacheStatement.feedCurrentChar_buckets s1 c).2.2 (by rw [hs1def]; exact hcp)
    refine ⟨s1.feedCurrentChar c, chars, [], ?_, by simp, ?_, ?_, ?_, ?_, ?_, ?_, ?_, ?_⟩
    · rw [heq, hcof, hic]
    · rw [hf.1]; exact hst
    · rw [hf.2.2.1]
    · rw [hf.2.2.1]
    · rw [hf.2.2.1]
    · exact hb.2
    · exact hb.1
    · intro _; rw [hf.2.2.2]; exact hcp
    · intro hend2
      rw [hf.2.1] at hend2
      rw [hs1def] at hend2
      simp only at hend2
      rw [hen] at hend2
      cases hend2
  · -- accepted: the closing run ends the statement
    set s3 : MustacheStatement :=
      { s1 with props := { s1.props with raw := s1.props.raw ++ shifted } } with hs3def
    have hsp := MustacheStatement.setPropM_fields s3
    refine ⟨{ s3.setProp with currentProp := MustachePropKey.textRight, ended := true },
      rest, shifted, ?_, hsplit, ?_, ?_, ?_, ?_, ?_, ?_, ?_, ?_⟩
    · rw [heq, hcof, hic]
    · show (s3.setProp).started = true
      rw [hsp.1]; exact hst
    · show (s3.setProp).props.textLeft = s.props.textLeft
      simp [MustacheStatement.setProp, hcp, hs3def, hs1def]
    · show (s3.setProp).props.raw = s.props.raw ++ c :: shifted
      rw [hsp.2.2.2.2.1]
      simp [hs3def, hs1def]
    · show (s3.setProp).props.textRight = s.props.textRight
      simp [MustacheStatement.setProp, hcp, hs3def, hs1def]
    · show (s3.setProp).internalProps.textRight = s.internalProps.textRight
      rw [hsp.2.2.2.1]
    · show (s3.setProp).internalProps.textLeft = s.internalProps.textLeft
      rw [hsp.2.2.2.1]
    · intro hfalse
      simp at hfalse
    · intro _
      refine ⟨rfl, ?_⟩
      rw [hsplit]
      simp only [List.length_append]
      omega

/-- `getName` either finds no mustache opening (state and lookahead
untouched) or detects one, in which case the full opening brace run
(the current char plus the shifted lookahead braces) lands in `raw`. -/
theorem MustacheStatement.getName_spec (s : MustacheStatement) (chars : Str) (c : Char) :
    s.getName chars c = (none, s, chars) ∨
    ∃ nm shifted rest, s.getName chars c =
        (some nm, { s with props := { s.props with raw := s.props.raw ++ c :: shifted } }, rest) ∧
      chars = shifted ++ rest ∧ 1 ≤ shifted.length := by
  rcases chars with _ | ⟨next, rest⟩
  · left; simp [MustacheStatement.getName]
  · by_cases hc : (c == braceOpen) = true
    · have hc2 : c = braceOpen := beq_iff_eq.mp hc
      by_cases hn : (next == braceOpen) = true
      · have hn2 : next = braceOpen := beq_iff_eq.mp hn
        rcases rest with _ | ⟨next2, rest2⟩
        · right
          refine ⟨mustacheName, [next], [], ?_, by simp, by simp⟩
          subst hc2; subst hn2
          simp [MustacheStatement.getName, bne]
        · by_cases h3 : (next2 == braceOpen) = true
          · have h32 : next2 = braceOpen := beq_iff_eq.mp h3
            right
            refine ⟨emustacheName, [next, next2], rest2, ?_, by simp, by simp⟩
            subst hc2; subst hn2; subst h32
            simp [MustacheStatement.getName, bne, List.append_assoc]
          · right
            refine ⟨mustacheName, [next], next2 :: rest2, ?_, by simp, by simp⟩
            subst hc2; subst hn2
            simp [MustacheStatement.getName, bne, h3]
      · left; simp [MustacheStatement.getName, bne, hn, hc]
    · left; simp [MustacheStatement.getName, bne, hc]

/-- Before the statement has started, `processChar` either feeds the
character verbatim to the `textLeft` bucket (consuming no lookahead), or
detects the opening braces and starts the statement: `textLeft` freezes to
its bucket, `raw` becomes exactly the consumed brace run, and collection
switches to `jsArg`. -/
theorem MustacheStatement.processChar_notstarted (s : MustacheStatement) (chars : Str) (c : Char)
    (hst : s.started = false) (hen : s.ended = false)
    (hcp : s.currentProp = MustachePropKey.textLeft) (hraw : s.props.raw = [])
    (hTLall : s.internalProps.textLeft.whitespace = WhiteSpaceModes.ALL) :
    (∃ s2, s.processChar chars c = (s2, chars) ∧
      s2.started = false ∧ s2.ended = false ∧ s2.currentProp = MustachePropKey.textLeft ∧
      s2.props = s.props ∧
      s2.internalProps.textLeft.chars = s.internalProps.textLeft.chars ++ [c] ∧
      s2.internalProps.textLeft.whitespace = WhiteSpaceModes.ALL ∧
      s2.internalProps.textRight = s.internalProps.textRight) ∨
    (∃ s2 consumed chars2, s.processChar chars c = (s2, chars2) ∧
      chars = consumed ++ chars2 ∧
      s2.started = true ∧ s2.ended = false ∧ s2.currentProp = MustachePropKey.jsArg ∧
      s2.props.textLeft = s.internalProps.textLeft.chars ∧
      s2.props.raw = c :: consumed ∧
      s2.props.textRight = s.props.textRight ∧
      s2.internalProps.textRight = s.internalProps.textRight ∧
      s2.internalProps.textLeft = s.internalProps.textLeft) := by
  have hbeq : (s.currentProp == MustachePropKey.jsArg) = false := by
    rw [hcp]; decide
  have heq0 : s.processChar chars c =
      match s.getName chars c with
      | (some n, s2, chars2) =>
        ({ ({ s2 with props := { s2.props with name := n }, started := true }).setProp with
            currentProp := MustachePropKey.jsArg }, chars2)
      | (none, s2, chars2) => s2.closingOrFeed chars2 c := by
    simp only [MustacheStatement.processChar, hbeq, Bool.false_eq_true, if_false]
    rw [if_pos (by simp [hst])]
  rcases MustacheStatement.getName_spec s chars c with hg | ⟨nm, shifted, rest, hg, hsplit, hlen⟩
  · -- no opening: plain textLeft feed
    left
    have hf := MustacheStatement.feedCurrentChar_fields s c
    have hb := (MustacheStatement.feedCurrentChar_buckets s c).2.1 hcp
    refine ⟨s.feedCurrentChar c, ?_, ?_, ?_, ?_, hf.2.2.1, ?_, ?_, hb.2⟩
    · rw [heq0, hg]
      show s.closingOrFeed chars c = (s.feedCurrentChar c, chars)
      unfold MustacheStatement.closingOrFeed
      rw [if_neg (by simp [hst])]
    · rw [hf.1]; exact hst
    · rw [hf.2.1]; exact hen
    · rw [hf.2.2.2]; exact hcp
    · rw [hb.1, CharBucket.feed_ALL _ _ hTLall]
    · rw [hb.1, CharBucket.feed_whitespace, hTLall]
  · -- opening braces: the statement starts
    right
    set sG : MustacheStatement :=
      { s with props := { s.props with raw := s.props.raw ++ c :: shifted } } with hsGdef
    set sN : MustacheStatement :=
      { sG with props := { sG.props with name := nm }, started := true } with hsNdef
    have hcpN : sN.currentProp = MustachePropKey.textLeft := hcp
    refine ⟨{ sN.setProp with currentProp := MustachePropKey.jsArg }, shifted, rest, ?_,
      hsplit, ?_, ?_, rfl, ?_, ?_, ?_, ?_, ?_⟩
    · rw [heq0, hg]
    · show (sN.setProp).started = true
      rw [(MustacheStatement.setPropM_fields sN).1]
    · show (sN.setProp).ended = false
      rw [(MustacheStatement.setPropM_fields sN).2.1]; exact hen
    · show (sN.setProp).props.textLeft = s.internalProps.textLeft.chars
      simp [MustacheStatement.setProp, hcp, hsNdef, hsGdef, CharBucket.get]
    · show (sN.setProp).props.raw = c :: shifted
      simp [MustacheStatement.setProp, hcp, hsNdef, hsGdef, hraw]
    · show (sN.setProp).props.textRight = s.props.textRight
      simp [MustacheStatement.setProp, hcp, hsNdef, hsGdef]
    · show (sN.setProp).internalProps.textRight = s.internalProps.textRight
      rw [(MustacheStatement.setPropM_fields sN).2.2.2.1]
    · show (sN.setProp).internalProps.textLeft = s.internalProps.textLeft
      rw [(MustacheStatement.setPropM_fields sN).2.2.2.1]

/-- One scanner step, uniformly over the three phases: the invariant is
preserved, the consumed text grows by the current character plus whatever
lookahead the step shifted, `started` is monotone, after `ended` nothing
more is consumed from the lookahead and `textRight` grows one character
per step, and the step that sets `ended` consumes at least two characters
in total while leaving the `textRight` bucket empty. -/
theorem MustacheStatement.processChar_step (s : MustacheStatement) (chars : Str) (c : Char)
    (hinv : s.Inv) :
    ∃ s2 chars2 consumed,
      s.processChar chars c = (s2, chars2) ∧ chars = consumed ++ chars2 ∧
      s2.Inv ∧
      s2.scanText = s.scanText ++ c :: consumed ∧
      (s.started = true → s2.started = true) ∧
      (s.ended = true → s2.ended = true ∧ chars2 = chars ∧
        s2.internalProps.textRight.chars.length =
          s.internalProps.textRight.chars.length + 1) ∧
      (s.ended = false → s2.ended = true →
        s2.internalProps.textRight.chars = [] ∧ chars2.length + 1 ≤ chars.length) := by
  obtain ⟨hNS, hSO, hE, hTR0, hTLall, hTRall⟩ := hinv
  by_cases hen : s.ended = true
  · -- after the end: textRight collection
    have hstE := (hE hen).1
    have hcpE := (hE hen).2
    obtain ⟨heq, hTRapp, hTRmode, hTLpres⟩ :=
      MustacheStatement.processChar_ended s chars c hen hstE hcpE hTRall
    have hf := MustacheStatement.feedCurrentChar_fields s c
    refine ⟨s.feedCurrentChar c, chars, [], heq, by simp, ?_, ?_, ?_, ?_, ?_⟩
    · refine ⟨?_, ?_, ?_, ?_, ?_, hTRmode⟩
      · intro h; rw [hf.1, hstE] at h; cases h
      · rintro ⟨-, h2⟩; rw [hf.2.1, hen] at h2; cases h2
      · intro _; exact ⟨by rw [hf.1]; exact hstE, by rw [hf.2.2.2]; exact hcpE⟩
      · intro h; rw [hf.2.1, hen] at h; cases h
      · rw [hTLpres]; exact hTLall
    · have hen2 : (s.feedCurrentChar c).ended = true := by rw [hf.2.1]; exact hen
      simp [MustacheStatement.scanText, hen2, hen, hf.2.2.1, hTRapp, List.append_assoc]
    · intro _; rw [hf.1]; exact hstE
    · intro _
      exact ⟨by rw [hf.2.1]; exact hen, rfl, by rw [hTRapp]; simp⟩
    · intro h; rw [hen] at h; cases h
  · have hen' : s.ended = false := by simpa using hen
    by_cases hst : s.started = true
    · -- collecting jsArg
      have hSO' := hSO ⟨hst, hen'⟩
      obtain ⟨s2, chars2, consumed, heq, hsplit, hst2, hTL, hraw, hTRp, hTRb, hTLb, hcpF,
        hcpT⟩ := MustacheStatement.processChar_collecting s chars c hen' hst hSO'.1
      refine ⟨s2, chars2, consumed, heq, hsplit, ?_, ?_, fun _ => hst2, ?_, ?_⟩
      · by_cases hend2 : s2.ended = true
        · refine ⟨?_, ?_, ?_, ?_, ?_, ?_⟩
          · intro h; rw [hst2] at h; cases h
          · rintro ⟨-, h2⟩; rw [hend2] at h2; cases h2
          · intro _; exact ⟨hst2, (hcpT hend2).1⟩
          · intro h; rw [hend2] at h; cases h
          · rw [hTLb]; exact hTLall
          · rw [hTRb]; exact hTRall
        · have hend2' : s2.ended = false := by simpa using hend2
          refine ⟨?_, ?_, ?_, ?_, ?_, ?_⟩
          · intro h; rw [hst2] at h; cases h
          · intro _
            exact ⟨hcpF hend2', by rw [hTRp]; exact hSO'.2.1, by rw [hraw]; simp⟩
          · intro h; rw [hend2'] at h; cases h
          · intro _; rw [hTRb]; exact hTR0 hen'
          · rw [hTLb]; exact hTLall
          · rw [hTRb]; exact hTRall
      · have hs : s.scanText = s.props.textLeft ++ s.props.raw := by
          simp [MustacheStatement.scanText, hen', hst]
        by_cases hend2 : s2.ended = true
        · have hTRb2 : s2.internalProps.textRight.chars = [] := by
            rw [hTRb]; exact hTR0 hen'
          simp [MustacheStatement.scanText, hend2, hs, hTL, hraw, hTRb2, List.append_assoc,
            hen', hst]
        · have hend2' : s2.ended = false := by simpa using hend2
          simp [MustacheStatement.scanText, hend2', hst2, hs, hTL, hraw, List.append_assoc,
            hen', hst]
      · intro h; rw [hen'] at h; cases h
      · intro _ h2
        exact ⟨by rw [hTRb]; exact hTR0 hen', (hcpT h2).2⟩
    · -- before the start: textLeft collection or opening detection
      have hst' : s.started = false := by simpa using hst
      have hNS' := hNS hst'
      rcases MustacheStatement.processChar_notstarted s chars c hst' hen' hNS'.2.2.2.1
          hNS'.1 hTLall with
        ⟨s2, heq, hst2, hen2, hcp2, hprops, hTLapp, hTLmode2, hTRpres⟩ |
        ⟨s2, consumed, chars2, heq, hsplit, hst2, hen2, hcp2, hTLp, hrawp, hTRpp, hTRbp, hTLbp⟩
      · refine ⟨s2, chars, [], heq, by simp, ?_, ?_, ?_, ?_, ?_⟩
        · refine ⟨?_, ?_, ?_, ?_, hTLmode2, ?_⟩
          · intro _
            rw [hprops]
            exact ⟨hNS'.1, hNS'.2.1, hNS'.2.2.1, hcp2, hen2⟩
          · rintro ⟨h1, -⟩; rw [hst2] at h1; cases h1
          · intro h; rw [hen2] at h; cases h
          · intro _; rw [hTRpres]; exact hTR0 hen'
          · rw [hTRpres]; exact hTRall
        · simp [MustacheStatement.scanText, hst', hen', hst2, hen2, hTLapp, hprops]
        · intro h; rw [hst'] at h; cases h
        · intro h; rw [hen'] at h; cases h
        · intro _ h2; rw [hen2] at h2; cases h2
      · refine ⟨s2, chars2, consumed, heq, hsplit, ?_, ?_, fun _ => hst2, ?_, ?_⟩
        · refine ⟨?_, ?_, ?_, ?_, ?_, ?_⟩
          · intro h; rw [hst2] at h; cases h
          · intro _
            exact ⟨hcp2, by rw [hTRpp]; exact hNS'.2.2.1, by rw [hrawp]; simp⟩
          · intro h; rw [hen2] at h; cases h
          · intro _; rw [hTRbp]; exact hTR0 hen'
          · rw [hTLbp]; exact hTLall
          · rw [hTRbp]; exact hTRall
        · have hs : s.scanText = s.internalProps.textLeft.chars := by
            simp [MustacheStatement.scanText, hen', hst']
          simp [MustacheStatement.scanText, hen2, hst2, hs, hTLp, hrawp, hst', hen']
        · intro h; rw [hen'] at h; cases h
        · intro _ h2; rw [hen2] at h2; cases h2

/-- The scanner loop preserves the invariant and appends the whole fed
character sequence to the consumed text; `started` and `ended` are
monotone, after `ended` the `textRight` bucket grows one character per
remaining character, and if the run ends during the loop at least two of
the fed characters were consumed by the closing run. -/
theorem MustacheStatement.processChars_content (n : Nat) :
    ∀ (fuel : Nat) (s : MustacheStatement) (cs : Str),
      cs.length ≤ n → cs.length ≤ fuel → s.Inv →
      (MustacheStatement.processChars fuel s cs).Inv ∧
      (MustacheStatement.processChars fuel s cs).scanText = s.scanText ++ cs ∧
      (s.started = true → (MustacheStatement.processChars fuel s cs).started = true) ∧
      (s.ended = true → (MustacheStatement.processChars fuel s cs).ended = true ∧
        (MustacheStatement.processChars fuel s cs).internalProps.textRight.chars.length =
          s.internalProps.textRight.chars.length + cs.length) ∧
      (s.ended = false → (MustacheStatement.processChars fuel s cs).ended = true →
        (MustacheStatement.processChars fuel s cs).internalProps.textRight.chars.length + 2 ≤
          cs.length) := by
  induction n with
  | zero =>
    intro fuel s cs hn _ hinv
    obtain rfl : cs = [] := List.eq_nil_of_length_eq_zero (Nat.le_zero.mp hn)
    have hps : MustacheStatement.processChars fuel s [] = s := by
      cases fuel <;> rfl
    rw [hps]
    refine ⟨hinv, by simp, fun h => h, fun h => ⟨h, by simp⟩, fun h1 h2 => ?_⟩
    rw [h1] at h2; cases h2
  | succ n ih =>
    intro fuel s cs hn hfuel hinv
    cases cs with
    | nil =>
      have hps : MustacheStatement.processChars fuel s [] = s := by
        cases fuel <;> rfl
      rw [hps]
      refine ⟨hinv, by simp, fun h => h, fun h => ⟨h, by simp⟩, fun h1 h2 => ?_⟩
      rw [h1] at h2; cases h2
    | cons c rest =>
      cases fuel with
      | zero => simp at hfuel
      | succ f =>
        obtain ⟨s2, rest2, consumed, heq, hsplit, hinv2, hscan, hstm, hendm, htrans⟩ :=
          MustacheStatement.processChar_step s rest c hinv
        have hps : MustacheStatement.processChars (f+1) s (c :: rest) =
            MustacheStatement.processChars f s2 rest2 := by
          simp only [MustacheStatement.processChars, heq]
        have hlen2 : rest2.length ≤ rest.length := by
          rw [hsplit]; simp
        simp only [List.length_cons] at hn hfuel
        have hIH := ih f s2 rest2 (by omega) (by omega) hinv2
        rw [hps]
        refine ⟨hIH.1, ?_, ?_, ?_, ?_⟩
        · rw [hIH.2.1, hscan, hsplit]
          simp [List.append_assoc]
        · intro h; exact hIH.2.2.1 (hstm h)
        · intro h
          obtain ⟨hend2, hch, hTRlen1⟩ := hendm h
          obtain ⟨hendF, hlenF⟩ := hIH.2.2.2.1 hend2
          refine ⟨hendF, ?_⟩
          rw [hlenF, hTRlen1, hch]
          simp only [List.length_cons]
          omega
        · intro h1 hendF
          by_cases hend2 : s2.ended = true
          · obtain ⟨hTRnil, hlen1⟩ := htrans h1 hend2
            obtain ⟨-, hlenF⟩ := hIH.2.2.2.1 hend2
            rw [hlenF, hTRnil]
            simp only [List.length_nil, List.length_cons]
            omega
          · have := hIH.2.2.2.2 (by simpa using hend2) hendF
            simp only [List.length_cons]
            omega

/-- `MustacheStatement.feed` on a not-yet-ended statement never fails and
extends the consumed text (`textLeft + raw + textRight`) by exactly the
fed line, with a newline separator when the statement had previous
content.  A still-seeking result keeps the invariant; a never-started
result has empty `raw`/`textRight`; an ended result kept at least the two
closing braces out of `textRight`. -/
theorem MustacheStatement.feed_content (s : MustacheStatement) (line : Str)
    (hinv : s.Inv) (hen : s.ended = false)
    (hTL : s.started = false → s.internalProps.textLeft.chars = []) :
    ∃ s2, s.feed line = Except.ok s2 ∧
      (s.started = true → s2.started = true) ∧
      (s2.started = true → s2.ended = false → s2.Inv) ∧
      (s2.started = false → s2.ended = false ∧ s2.props.raw = [] ∧ s2.props.textRight = []) ∧
      s2.consumedText = s.consumedText ++
        (if s.props.raw.isEmpty then [] else ['\n']) ++ line ∧
      (s2.ended = true → s2.props.textRight.length + 2 ≤ line.length) := by
  obtain ⟨hNS, hSO, hE, hTR0, hTLall, hTRall⟩ := hinv
  set sa := (if s.props.raw.isEmpty then s
    else { s with props := { s.props with raw := s.props.raw ++ ['\n'] } }) with hsadef
  set run := MustacheStatement.processChars line.length sa line with hrundef
  have hfeq : s.feed line =
      if !run.seeking then Except.ok run.setProp else Except.ok run := by
    unfold MustacheStatement.feed
    rw [if_neg (by simp [hen])]
  have hsa_started : sa.started = s.started := by
    by_cases h : s.props.raw.isEmpty <;> simp [hsadef, h]
  have hsa_ended : sa.ended = false := by
    by_cases h : s.props.raw.isEmpty <;> simp [hsadef, h, hen]
  have hsa_TLb : sa.internalProps.textLeft = s.internalProps.textLeft := by
    by_cases h : s.props.raw.isEmpty <;> simp [hsadef, h]
  have hsa_inv : sa.Inv := by
    by_cases h : s.props.raw.isEmpty
    · have hs : sa = s := by rw [hsadef, if_pos h]
      rw [hs]
      exact ⟨hNS, hSO, hE, hTR0, hTLall, hTRall⟩
    · have hst : s.started = true := by
        by_cases h2 : s.started = true
        · exact h2
        · have := (hNS (by simpa using h2)).1
          rw [this] at h
          simp at h
      have hsa2 : sa = { s with props := { s.props with raw := s.props.raw ++ ['\n'] } } := by
        rw [hsadef, if_neg h]
      rw [hsa2]
      refine ⟨?_, ?_, ?_, ?_, hTLall, hTRall⟩
      · intro hx
        have hx2 : s.started = false := hx
        rw [hst] at hx2; cases hx2
      · rintro ⟨-, -⟩
        exact ⟨(hSO ⟨hst, hen⟩).1, (hSO ⟨hst, hen⟩).2.1, by simp⟩
      · intro hx
        have hx2 : s.ended = true := hx
        rw [hen] at hx2; cases hx2
      · intro _; exact hTR0 hen
  have hsa_scan : sa.scanText = s.scanText ++ (if s.props.raw.isEmpty then [] else ['\n']) := by
    by_cases h : s.props.raw.isEmpty
    · simp [hsadef, h]
    · have hst : s.started = true := by
        by_cases h2 : s.started = true
        · exact h2
        · have := (hNS (by simpa using h2)).1
          rw [this] at h
          simp at h
      simp [hsadef, h, MustacheStatement.scanText, hst, hen]
  have hpre : s.scanText = s.consumedText := by
    by_cases hst : s.started = true
    · have hTRp := (hSO ⟨hst, hen⟩).2.1
      simp [MustacheStatement.scanText, MustacheStatement.consumedText, hst, hen, hTRp]
    · have hNS' := hNS (by simpa using hst)
      simp [MustacheStatement.scanText, MustacheStatement.consumedText, hen,
        (by simpa using hst : s.started = false), hNS'.1, hNS'.2.1, hNS'.2.2.1,
        hTL (by simpa using hst)]
  obtain ⟨hinvF, hscanF, hstmF, _, htransF⟩ :=
    MustacheStatement.processChars_content line.length line.length sa line
      (Nat.le_refl _) (Nat.le_refl _) hsa_inv
  rw [← hrundef] at hinvF hscanF hstmF htransF
  obtain ⟨hNSF, hSOF, hEF, hTR0F, hTLallF, hTRallF⟩ := hinvF
  have hspF := MustacheStatement.setPropM_fields run
  by_cases hsk : run.seeking = true
  · -- still seeking: statement stays open
    have hstF : run.started = true := ((Bool.and_eq_true _ _).mp hsk).1
    have henF : run.ended = false := by
      have := ((Bool.and_eq_true _ _).mp hsk).2
      simpa using this
    refine ⟨run, by rw [hfeq, hsk]; rfl, fun _ => hstF, fun _ _ => ⟨hNSF, hSOF, hEF, hTR0F,
      hTLallF, hTRallF⟩, ?_, ?_, ?_⟩
    · intro h; rw [hstF] at h; cases h
    · have hTRpF := (hSOF ⟨hstF, henF⟩).2.1
      have : run.consumedText = run.scanText := by
        simp [MustacheStatement.scanText, MustacheStatement.consumedText, hstF, henF, hTRpF]
      rw [this, hscanF, hsa_scan, hpre]
    · intro h; rw [henF] at h; cases h
  · -- not seeking: the final setProp runs
    have hsk' : run.seeking = false := by simpa using hsk
    have hfeq2 : s.feed line = Except.ok run.setProp := by
      rw [hfeq, hsk']; rfl
    by_cases hendF : run.ended = true
    · -- the statement ended during this line
      have hstF := (hEF hendF).1
      have hcpF := (hEF hendF).2
      have hprops : (run.setProp).props.textLeft = run.props.textLeft ∧
          (run.setProp).props.raw = run.props.raw ∧
          (run.setProp).props.textRight = run.internalProps.textRight.chars := by
        simp [MustacheStatement.setProp, hcpF, CharBucket.get]
      refine ⟨run.setProp, hfeq2, fun _ => by rw [hspF.1]; exact hstF, ?_, ?_, ?_, ?_⟩
      · intro _ h2
        rw [hspF.2.1, hendF] at h2
        cases h2
      · intro h
        rw [hspF.1, hstF] at h
        cases h
      · have : (run.setProp).consumedText = run.scanText := by
          simp [MustacheStatement.consumedText, MustacheStatement.scanText, hendF,
            hprops.1, hprops.2.1, hprops.2.2, List.append_assoc]
        rw [this, hscanF, hsa_scan, hpre]
      · intro _
        rw [hprops.2.2]
        exact htransF hsa_ended hendF
    · -- never started (not seeking, not ended)
      have hstF : run.started = false := by
        by_cases h : run.started = true
        · exfalso
          have : run.seeking = true := by
            simp [MustacheStatement.seeking, h, (by simpa using hendF : run.ended = false)]
          rw [this] at hsk'; cases hsk'
        · simpa using h
      have hNSF' := hNSF hstF
      have hprops : (run.setProp).props.textLeft = run.internalProps.textLeft.chars ∧
          (run.setProp).props.raw = run.props.raw ∧
          (run.setProp).props.textRight = run.props.textRight := by
        simp [MustacheStatement.setProp, hNSF'.2.2.2.1, CharBucket.get]
      refine ⟨run.setProp, hfeq2, ?_, ?_, ?_, ?_, ?_⟩
      · intro h
        have := hstmF (by rw [hsa_started]; exact h)
        rw [this] at hstF
        cases hstF
      · intro h1 _
        rw [hspF.1, hstF] at h1
        cases h1
      · intro _
        exact ⟨by rw [hspF.2.1]; exact hNSF'.2.2.2.2,
          by rw [hprops.2.1]; exact hNSF'.1,
          by rw [hprops.2.2]; exact hNSF'.2.2.1⟩
      · have : (run.setProp).consumedText = run.scanText := by
          simp [MustacheStatement.consumedText, MustacheStatement.scanText,
            (by rw [hspF.2.1]; exact hNSF'.2.2.2.2 : (run.setProp).ended = false),
            hstF, hNSF'.2.2.2.2,
            hprops.1, hprops.2.1, hprops.2.2, hNSF'.1, hNSF'.2.2.1]
        rw [this, hscanF, hsa_scan, hpre]
      · intro h
        rw [hspF.2.1, hNSF'.2.2.2.2] at h
        cases h

/-- The serialization of a tokenizer state: the serialized root tokens,
plus — when a mustache statement is open — its consumed text and the line
break its completion or recovery will eventually contribute. -/
def Tokenizer.serAll (t : Tokenizer) : Str :=
  serializeNodes t.tokens ++
    (match t.mustacheStatement with
     | none => []
     | some m => m.consumedText ++ ['\n'])

/-- The tokenizer invariant for parsing under an empty tag table: no tag
statement, no open blocks, empty table, and any open mustache statement is
started, unended and well-formed. -/
def Tokenizer.CInv (t : Tokenizer) : Prop :=
  t.blockStatement = none ∧ t.openedTags = [] ∧ t.tagsDef = [] ∧
  ∀ m, t.mustacheStatement = some m → m.started = true ∧ m.ended = false ∧ m.Inv

/-- With an empty tag table no line matches a tag. -/
theorem Tokenizer.getTag_nil (line : Str) : Tokenizer.getTag [] line = none := by
  unfold Tokenizer.getTag
  cases matchTag (trimStr line) with
  | none => rfl
  | some p =>
    cases p
    simp [List.lookup]

/-- `consumeNode` on an empty stack appends to the tokens and changes
nothing else. -/
theorem Tokenizer.consumeNode_nil (t : Tokenizer) (n : Node) (hot : t.openedTags = []) :
    t.consumeNode n = { t with tokens := t.tokens ++ [n] } := by
  unfold Tokenizer.consumeNode
  rw [hot]

/-- The serialization effect of `emitMustacheNodes` on an empty stack: the
`textLeft` and `raw` of the completed statement are appended, and all
other fields survive. -/
theorem Tokenizer.emitMustacheNodes_ser (t : Tokenizer) (s2 : MustacheStatement)
    (hot : t.openedTags = []) :
    serializeNodes (t.emitMustacheNodes s2).tokens =
      serializeNodes t.tokens ++ s2.props.textLeft ++ s2.props.raw ∧
    (t.emitMustacheNodes s2).openedTags = [] ∧
    (t.emitMustacheNodes s2).blockStatement = t.blockStatement ∧
    (t.emitMustacheNodes s2).mustacheStatement = t.mustacheStatement ∧
    (t.emitMustacheNodes s2).tagsDef = t.tagsDef ∧
    (t.emitMustacheNodes s2).line = t.line := by
  unfold Tokenizer.emitMustacheNodes
  by_cases h : s2.props.textLeft.isEmpty
  · have hTL : s2.props.textLeft = [] := by simpa [List.isEmpty_iff] using h
    rw [if_pos h, Tokenizer.consumeNode_nil _ _ hot]
    simp [serializeNodes_append, serializeNodes, serializeNode, hTL, hot]
  · rw [if_neg h, Tokenizer.consumeNode_nil _ _ hot,
      Tokenizer.consumeNode_nil _ _ (by simp [hot])]
    simp [serializeNodes_append, serializeNodes, serializeNode, List.append_assoc, hot]

/-- Branch lemma: an open seeking mustache statement that is still seeking
after the feed is stored back. -/
theorem Tokenizer.processText_mustache_seeking (t : Tokenizer) (m s2 : MustacheStatement)
    (text : Str) (fuel : Nat)
    (hbs : t.blockStatement = none) (hmsv : t.mustacheStatement = some m)
    (hseek : m.seeking = true) (hfeed : m.feed text = Except.ok s2)
    (hsk2 : s2.seeking = true) :
    Tokenizer.processText (fuel+1) t text =
      Except.ok { t with mustacheStatement := some s2 } := by
  simp [Tokenizer.processText, hbs, hmsv, hseek, hfeed, hsk2]

/-- Branch lemma: an open mustache statement that completes with empty
`textRight` emits its nodes and a `Newline`. -/
theorem Tokenizer.processText_mustache_complete (t : Tokenizer) (m s2 : MustacheStatement)
    (text : Str) (fuel : Nat)
    (hbs : t.blockStatement = none) (hmsv : t.mustacheStatement = some m)
    (hseek : m.seeking = true) (hfeed : m.feed text = Except.ok s2)
    (hsk2 : s2.seeking = false) (htr : s2.props.textRight.isEmpty = true) :
    Tokenizer.processText (fuel+1) t text =
      Except.ok (({ t.emitMustacheNodes s2 with mustacheStatement := none }).consumeNode
        (Node.newline ({ t.emitMustacheNodes s2 with mustacheStatement := none }).line)) := by
  simp [Tokenizer.processText, hbs, hmsv, hseek, hfeed, hsk2, htr]

/-- Branch lemma: an open mustache statement that completes with non-empty
`textRight` emits its nodes then re-classifies `textRight`. -/
theorem Tokenizer.processText_mustache_textRight (t : Tokenizer) (m s2 : MustacheStatement)
    (text : Str) (fuel : Nat)
    (hbs : t.blockStatement = none) (hmsv : t.mustacheStatement = some m)
    (hseek : m.seeking = true) (hfeed : m.feed text = Except.ok s2)
    (hsk2 : s2.seeking = false) (htr : s2.props.textRight.isEmpty = false) :
    Tokenizer.processText (fuel+1) t text =
      Tokenizer.processText fuel { t.emitMustacheNodes s2 with mustacheStatement := none }
        s2.props.textRight := by
  simp [Tokenizer.processText, hbs, hmsv, hseek, hfeed, hsk2, htr]

/-- Branch lemma: a fresh line containing a mustache opening starts a new
statement; when it is still seeking it is stored. -/
theorem Tokenizer.processText_fresh_mustache_seeking (t : Tokenizer) (s2 : MustacheStatement)
    (text : Str) (fuel : Nat)
    (hbs : t.blockStatement = none) (hmsv : t.mustacheStatement = none)
    (htag : Tokenizer.getTag t.tagsDef text = none) (hcl : t.isClosingTag text = false)
    (hmus : hasMustache text = true)
    (hfeed : (MustacheStatement.init t.line).feed text = Except.ok s2)
    (hsk2 : s2.seeking = true) :
    Tokenizer.processText (fuel+1) t text =
      Except.ok { t with mustacheStatement := some s2 } := by
  simp [Tokenizer.processText, hbs, hmsv, htag, hcl, hmus, hfeed, hsk2]

/-- Branch lemma: a fresh mustache line whose statement is no longer
seeking after the first feed, with empty `textRight`. -/
theorem Tokenizer.processText_fresh_mustache_complete (t : Tokenizer) (s2 : MustacheStatement)
    (text : Str) (fuel : Nat)
    (hbs : t.blockStatement = none) (hmsv : t.mustacheStatement = none)
    (htag : Tokenizer.getTag t.tagsDef text = none) (hcl : t.isClosingTag text = false)
    (hmus : hasMustache text = true)
    (hfeed : (MustacheStatement.init t.line).feed text = Except.ok s2)
    (hsk2 : s2.seeking = false) (htr : s2.props.textRight.isEmpty = true) :
    Tokenizer.processText (fuel+1) t text =
      Except.ok (({ t.emitMustacheNodes s2 with mustacheStatement := none }).consumeNode
        (Node.newline ({ t.emitMustacheNodes s2 with mustacheStatement := none }).line)) := by
  simp [Tokenizer.processText, hbs, hmsv, htag, hcl, hmus, hfeed, hsk2, htr]

/-- Branch lemma: a fresh mustache line whose statement is no longer
seeking after the first feed, with non-empty `textRight`. -/
theorem Tokenizer.processText_fresh_mustache_textRight (t : Tokenizer) (s2 : MustacheStatement)
    (text : Str) (fuel : Nat)
    (hbs : t.blockStatement = none) (hmsv : t.mustacheStatement = none)
    (htag : Tokenizer.getTag t.tagsDef text = none) (hcl : t.isClosingTag text = false)
    (hmus : hasMustache text = true)
    (hfeed : (MustacheStatement.init t.line).feed text = Except.ok s2)
    (hsk2 : s2.seeking = false) (htr : s2.props.textRight.isEmpty = false) :
    Tokenizer.processText (fuel+1) t text =
      Tokenizer.processText fuel { t.emitMustacheNodes s2 with mustacheStatement := none }
        s2.props.textRight := by
  simp [Tokenizer.processText, hbs, hmsv, htag, hcl, hmus, hfeed, hsk2, htr]

/-- The state after emitting a completed mustache statement's nodes (with
an empty open-tag stack and empty tag table) satisfies the invariant, and
its serialization is the previous tokens plus `textLeft` and `raw`. -/
theorem Tokenizer.post_emit (t : Tokenizer) (s2 : MustacheStatement)
    (hbs : t.blockStatement = none) (hot : t.openedTags = []) (htd : t.tagsDef = []) :
    Tokenizer.CInv { t.emitMustacheNodes s2 with mustacheStatement := none } ∧
    Tokenizer.serAll { t.emitMustacheNodes s2 with mustacheStatement := none } =
      serializeNodes t.tokens ++ s2.props.textLeft ++ s2.props.raw ∧
    ({ t.emitMustacheNodes s2 with mustacheStatement := none } : Tokenizer).openedTags = [] := by
  obtain ⟨hser, hot2, hbs2, _, htd2, _⟩ := Tokenizer.emitMustacheNodes_ser t s2 hot
  refine ⟨⟨?_, ?_, ?_, ?_⟩, ?_, ?_⟩
  · simpa using (hbs2.trans hbs)
  · simpa using hot2
  · simpa using (htd2.trans htd)
  · intro m h; simp at h
  · simp [Tokenizer.serAll, hser]
  · simpa using hot2

/-- The serialization induction for `processText` under an empty tag
table: processing any text appends exactly that text plus one line break
to the tokenizer's serialization, without error, preserving the
invariant. -/
theorem Tokenizer.processText_ser (fuel : Nat) :
    ∀ (t : Tokenizer) (text : Str), text.length < fuel → t.CInv →
      ∃ t2, Tokenizer.processText fuel t text = Except.ok t2 ∧ t2.CInv ∧
        t2.serAll = t.serAll ++ text ++ ['\n'] := by
  induction fuel with
  | zero => intro t text h; exact absurd h (Nat.not_lt_zero _)
  | succ fuel ih =>
    intro t text hlen hinv
    obtain ⟨hbs, hot, htd, hms⟩ := hinv
    have hcl : t.isClosingTag text = false := by simp [Tokenizer.isClosingTag, hot]
    have htag : Tokenizer.getTag t.tagsDef text = none := by
      rw [htd]; exact Tokenizer.getTag_nil text
    cases hmsv : t.mustacheStatement with
    | some m =>
      obtain ⟨hm_st, hm_en, hm_inv⟩ := hms m hmsv
      have hseek : m.seeking = true := by simp [MustacheStatement.seeking, hm_st, hm_en]
      obtain ⟨s2, hfeed, hstm, hinv2, hnost, hpc, htrb⟩ :=
        MustacheStatement.feed_content m text hm_inv hm_en
          (fun h => by rw [hm_st] at h; cases h)
      have hst2 : s2.started = true := hstm hm_st
      have hrawne : m.props.raw.isEmpty = false := by
        have := (hm_inv.2.1 ⟨hm_st, hm_en⟩).2.2
        simpa [List.isEmpty_iff] using this
      rw [hrawne] at hpc
      simp only [Bool.false_eq_true, if_false] at hpc
      have hserT : t.serAll = serializeNodes t.tokens ++ m.consumedText ++ ['\n'] := by
        simp [Tokenizer.serAll, hmsv, List.append_assoc]
      by_cases hsk2 : s2.seeking = true
      · have hen2 : s2.ended = false := by
          have := ((Bool.and_eq_true _ _).mp hsk2).2
          simpa using this
        refine ⟨{ t with mustacheStatement := some s2 },
          Tokenizer.processText_mustache_seeking t m s2 text fuel hbs hmsv hseek hfeed hsk2,
          ⟨by simpa using hbs, by simpa using hot, by simpa using htd, ?_⟩, ?_⟩
        · intro m2 h2
          simp only [Option.some.injEq] at h2
          subst h2
          exact ⟨hst2, hen2, hinv2 hst2 hen2⟩
        · rw [hserT]
          simp only [Tokenizer.serAll]
          rw [hpc]
          simp [List.append_assoc]
      · have hsk2' : s2.seeking = false := by simpa using hsk2
        have hen2 : s2.ended = true := by
          cases hend : s2.ended
          · exfalso
            have : s2.seeking = true := by
              simp [MustacheStatement.seeking, hst2, hend]
            rw [this] at hsk2'; cases hsk2'
          · rfl
        obtain ⟨hpost_inv, hpost_ser, hpost_ot⟩ := Tokenizer.post_emit t s2 hbs hot htd
        by_cases htr : s2.props.textRight.isEmpty = true
        · have hTRnil : s2.props.textRight = [] := by simpa [List.isEmpty_iff] using htr
          set t3 : Tokenizer := { t.emitMustacheNodes s2 with mustacheStatement := none }
            with ht3def
          have ht4 : t3.consumeNode (Node.newline t3.line) =
              { t3 with tokens := t3.tokens ++ [Node.newline t3.line] } :=
            Tokenizer.consumeNode_nil _ _ hpost_ot
          refine ⟨{ t3 with tokens := t3.tokens ++ [Node.newline t3.line] }, ?_, ?_, ?_⟩
          · rw [Tokenizer.processText_mustache_complete t m s2 text fuel hbs hmsv hseek hfeed
              hsk2' htr, ht4]
          · obtain ⟨hc1, hc2, hc3, _⟩ := hpost_inv
            exact ⟨by simpa using hc1, by simpa using hc2, by simpa using hc3,
              by intro m2 h2; simp at h2⟩
          · have hms3 : t3.mustacheStatement = none := rfl
            have hser3 : serializeNodes t3.tokens =
                serializeNodes t.tokens ++ s2.props.textLeft ++ s2.props.raw := by
              have := hpost_ser
              simp only [Tokenizer.serAll, hms3] at this
              simpa using this
            rw [hserT]
            simp only [Tokenizer.serAll, hms3]
            rw [serializeNodes_append, hser3]
            have : s2.consumedText = s2.props.textLeft ++ s2.props.raw := by
              simp [MustacheStatement.consumedText, hTRnil]
            rw [this] at hpc
            have hgoal := congrArg (fun l => l ++ ['\n']) hpc
            simp only at hgoal
            simp [serializeNodes, serializeNode, List.append_assoc] at hgoal ⊢
            rw [hgoal]
        · have htr' : s2.props.textRight.isEmpty = false := by simpa using htr
          have hlenTR := htrb hen2
          obtain ⟨t4, heq4, hinv4, hser4⟩ := ih
            { t.emitMustacheNodes s2 with mustacheStatement := none } s2.props.textRight
            (by omega) hpost_inv
          refine ⟨t4, ?_, hinv4, ?_⟩
          · rw [Tokenizer.processText_mustache_textRight t m s2 text fuel hbs hmsv hseek hfeed
              hsk2' htr']
            exact heq4
          · rw [hser4, hpost_ser, hserT]
            have h1 : serializeNodes t.tokens ++ s2.props.textLeft ++ s2.props.raw ++
                  s2.props.textRight ++ ['\n'] =
                serializeNodes t.tokens ++ s2.consumedText ++ ['\n'] := by
              simp [MustacheStatement.consumedText, List.append_assoc]
            rw [h1, hpc]
            simp [List.append_assoc]
    | none =>
      have hserT : t.serAll = serializeNodes t.tokens := by
        simp [Tokenizer.serAll, hmsv]
      by_cases hmus : hasMustache text = true
      · -- fresh mustache statement
        obtain ⟨s2, hfeed, hstm, hinv2, hnost, hpc, htrb⟩ :=
          MustacheStatement.feed_content (MustacheStatement.init t.line) text
            (MustacheStatement.init_Inv t.line) rfl (fun _ => rfl)
        have hpc2 : s2.consumedText = text := by
          simpa [MustacheStatement.consumedText, MustacheStatement.init] using hpc
        by_cases hsk2 : s2.seeking = true
        · have hst2 : s2.started = true := ((Bool.and_eq_true _ _).mp hsk2).1
          have hen2 : s2.ended = false := by
            have := ((Bool.and_eq_true _ _).mp hsk2).2
            simpa using this
          refine ⟨{ t with mustacheStatement := some s2 },
            Tokenizer.processText_fresh_mustache_seeking t s2 text fuel hbs hmsv htag hcl hmus
              hfeed hsk2,
            ⟨by simpa using hbs, by simpa using hot, by simpa using htd, ?_⟩, ?_⟩
          · intro m2 h2
            simp only [Option.some.injEq] at h2
            subst h2
            exact ⟨hst2, hen2, hinv2 hst2 hen2⟩
          · rw [hserT]
            simp only [Tokenizer.serAll]
            rw [hpc2]
            simp [List.append_assoc]
        · have hsk2' : s2.seeking = false := by simpa using hsk2
          obtain ⟨hpost_inv, hpost_ser, hpost_ot⟩ := Tokenizer.post_emit t s2 hbs hot htd
          by_cases htr : s2.props.textRight.isEmpty = true
          · have hTRnil : s2.props.textRight = [] := by simpa [List.isEmpty_iff] using htr
            set t3 : Tokenizer := { t.emitMustacheNodes s2 with mustacheStatement := none }
              with ht3def
            have ht4 : t3.consumeNode (Node.newline t3.line) =
                { t3 with tokens := t3.tokens ++ [Node.newline t3.line] } :=
              Tokenizer.consumeNode_nil _ _ hpost_ot
            refine ⟨{ t3 with tokens := t3.tokens ++ [Node.newline t3.line] }, ?_, ?_, ?_⟩
            · rw [Tokenizer.processText_fresh_mustache_complete t s2 text fuel hbs hmsv htag
                hcl hmus hfeed hsk2' htr, ht4]
            · obtain ⟨hc1, hc2, hc3, _⟩ := hpost_inv
              exact ⟨by simpa using hc1, by simpa using hc2, by simpa using hc3,
                by intro m2 h2; simp at h2⟩
            · have hms3 : t3.mustacheStatement = none := rfl
              have hser3 : serializeNodes t3.tokens =
                  serializeNodes t.tokens ++ s2.props.textLeft ++ s2.props.raw := by
                have := hpost_ser
                simp only [Tokenizer.serAll, hms3] at this
                simpa using this
              rw [hserT]
              simp only [Tokenizer.serAll, hms3]
              rw [serializeNodes_append, hser3]
              have : s2.consumedText = s2.props.textLeft ++ s2.props.raw := by
                simp [MustacheStatement.consumedText, hTRnil]
              rw [this] at hpc2
              have hgoal := congrArg (fun l => l ++ ['\n']) hpc2
              simp only at hgoal
              simp [serializeNodes, serializeNode, List.append_assoc] at hgoal ⊢
              rw [hgoal]
          · have htr' : s2.props.textRight.isEmpty = false := by simpa using htr
            have hen2 : s2.ended = true := by
              cases hend : s2.ended
              · exfalso
                have hst2 : s2.started = false := by
                  cases hstv : s2.started
                  · rfl
                  · exfalso
                    have : s2.seeking = true := by
                      simp [MustacheStatement.seeking, hstv, hend]
                    rw [this] at hsk2'; cases hsk2'
                have := (hnost hst2).2.2
                rw [this] at htr'
                simp at htr'
              · rfl
            have hlenTR := htrb hen2
            obtain ⟨t4, heq4, hinv4, hser4⟩ := ih
              { t.emitMustacheNodes s2 with mustacheStatement := none } s2.props.textRight
              (by omega) hpost_inv
            refine ⟨t4, ?_, hinv4, ?_⟩
            · rw [Tokenizer.processText_fresh_mustache_textRight t s2 text fuel hbs hmsv htag
                hcl hmus hfeed hsk2' htr']
              exact heq4
            · rw [hser4, hpost_ser, hserT]
              have hc : s2.props.textLeft ++ s2.props.raw ++ s2.props.textRight = text := by
                have := hpc2
                simp only [MustacheStatement.consumedText] at this
                simpa [List.append_assoc] using this
              calc serializeNodes t.tokens ++ s2.props.textLeft ++ s2.props.raw ++
                    s2.props.textRight ++ ['\n']
                  = serializeNodes t.tokens ++ (s2.props.textLeft ++ s2.props.raw ++
                    s2.props.textRight) ++ ['\n'] := by simp [List.append_assoc]
                _ = serializeNodes t.tokens ++ text ++ ['\n'] := by rw [hc]
      · -- plain raw line
        have hmus' : hasMustache text = false := by simpa using hmus
        refine ⟨{ t with tokens := t.tokens ++ [Node.raw text t.line, Node.newline t.line] },
          ?_, ⟨by simpa using hbs, by simpa using hot, by simpa using htd, ?_⟩, ?_⟩
        · have := Tokenizer.processText_plain fuel t text hbs hmsv hot htag hmus'
          exact this
        · intro m2 h2
          simp only at h2
          rw [hmsv] at h2
          cases h2
        · simp only [Tokenizer.serAll, hmsv]
          simp [hserT, serializeNodes_append, serializeNodes, serializeNode,
            List.append_assoc]

/-- The text reconstructed from a list of lines: each line followed by one
line break (the serialization of the Raw/Newline pairs that a line
produces). -/
def linesG : List Str → Str
  | [] => []
  | l :: ls => l ++ '\n' :: linesG ls

/-- Lifting `processText_ser` over the line loop: processing a list of
lines under the invariant appends each line plus a line break to the
serialization. -/
theorem Tokenizer.processLines_ser (lines : List Str) :
    ∀ (t : Tokenizer), t.CInv →
      ∃ t2, Tokenizer.processLines t lines = Except.ok t2 ∧ t2.CInv ∧
        t2.serAll = t.serAll ++ linesG lines := by
  induction lines with
  | nil =>
    intro t hinv
    exact ⟨t, rfl, hinv, by simp [linesG]⟩
  | cons l ls ih =>
    intro t hinv
    have hinv1 : Tokenizer.CInv { t with line := t.line + 1 } := hinv
    obtain ⟨t2, heq, hinv2, hser2⟩ :=
      Tokenizer.processText_ser (l.length + 1) { t with line := t.line + 1 } l
        (Nat.lt_succ_self _) hinv1
    obtain ⟨t3, heq3, hinv3, hser3⟩ := ih t2 hinv2
    refine ⟨t3, ?_, hinv3, ?_⟩
    · rw [Tokenizer.processLines_cons, heq]
      exact heq3
    · rw [hser3, hser2]
      have h0 : Tokenizer.serAll { t with line := t.line + 1 } = t.serAll := rfl
      rw [h0]
      simp [linesG, List.append_assoc]

/-- Re-joining the lines produced by `splitOnNl` with one line break after
each yields the original text followed by a single trailing line break. -/
theorem linesG_splitOnNl (s : Str) : linesG (splitOnNl s) = s ++ ['\n'] := by
  induction s with
  | nil => rfl
  | cons c rest ih =>
    by_cases hc : c = '\n'
    · subst hc
      simp only [splitOnNl, beq_self_eq_true, if_true, linesG]
      rw [ih]
      rfl
    · have hbeq : (c == '\n') = false := beq_eq_false_iff_ne.mpr hc
      simp only [splitOnNl, hbeq, if_false]
      cases hsp : splitOnNl rest with
      | nil =>
        rw [hsp, linesG] at ih
        exact absurd ih.symm (by simp)
      | cons l ls =>
        rw [hsp, linesG] at ih
        simp only [linesG, List.cons_append]
        rw [ih]

/-- Under the invariant (no open block statement, empty stack), `finalize`
turns a still-open mustache statement into Raw + Newline nodes whose
serialization is exactly the statement's recorded text, so the token
serialization after `finalize` equals the running serialization ledger. -/
theorem Tokenizer.finalize_ser (t : Tokenizer) (hinv : t.CInv) :
    serializeNodes t.finalize.tokens = t.serAll := by
  obtain ⟨hbs, hot, htd, hms⟩ := hinv
  cases hmsv : t.mustacheStatement with
  | none =>
    have hfin : t.finalize = t := by
      simp [Tokenizer.finalize, hbs, hmsv]
    rw [hfin]
    simp [Tokenizer.serAll, hmsv]
  | some m =>
    have hfin : t.finalize =
        ({ t.consumeNode
            (Node.raw (m.props.textLeft ++ m.props.raw ++ m.props.textRight) t.line) with
            mustacheStatement := none }).consumeNode (Node.newline t.line) := by
      simp [Tokenizer.finalize, hbs, hmsv]
    rw [hfin, Tokenizer.consumeNode_nil _ _ hot,
      Tokenizer.consumeNode_nil _ _ (by simpa using hot)]
    simp only [Tokenizer.serAll, hmsv]
    simp [serializeNodes_append, serializeNodes, serializeNode,
      MustacheStatement.consumedText, List.append_assoc]

/-- Counterexample to C2.  The round-trip is not exact even for templates
that parse to completion: (1) parsing the one-character template "a"
serializes back to "a" plus a trailing line break, not to "a"; (2) for a
block template the tag lines themselves are never serialized (a `Block`
node contributes only its children), so "@if(x)", "hi", "@endif" with the
`if` tag registered serializes to a line break, "hi", and two more line
breaks - which is neither the template nor the template plus one trailing
line break. -/
theorem serialize_roundtrip_counterexample :
    ((Tokenizer.parse ['a'] []).map serializeNodes = Except.ok ['a', '\n'] ∧
      (['a', '\n'] : Str) ≠ ['a']) ∧
    ((Tokenizer.parse "@if(x)\nhi\n@endif".toList ifTagsDef).map serializeNodes =
        Except.ok "\nhi\n\n".toList ∧
      "\nhi\n\n".toList ≠ "@if(x)\nhi\n@endif".toList ∧
      "\nhi\n\n".toList ≠ "@if(x)\nhi\n@endif".toList ++ ['\n']) :=
  ⟨⟨by decide, by decide⟩, ⟨by decide, by decide, by decide⟩⟩

/-- C2.  Round-trip of the serialization, amended: the reconstruction
carries one extra trailing line break, and tag lines are excluded by
restricting to an empty tag table (under which no line matches a tag and
the only structure is Raw/Newline/mustache recovery).  For EVERY template
- even ones with unterminated mustache statements - parsing with an empty
tag table succeeds, and concatenating the Raw values and Mustache raw
fields of the output tokens in order, with one line break per Newline
node, reconstructs the template text followed by exactly one trailing
line break. -/
theorem parse_roundtrip_no_tags (template : Str) :
    (Tokenizer.parse template []).map serializeNodes =
      Except.ok (template ++ ['\n']) := by
  have hinv : Tokenizer.CInv (Tokenizer.init []) :=
    ⟨rfl, rfl, rfl, fun m h => by cases h⟩
  obtain ⟨t2, heq, hinv2, hser2⟩ :=
    Tokenizer.processLines_ser (splitOnNl template) (Tokenizer.init []) hinv
  have hparse : Tokenizer.parse template [] = Except.ok t2.finalize.tokens := by
    unfold Tokenizer.parse
    rw [heq]
  rw [hparse]
  show Except.ok (serializeNodes t2.finalize.tokens) = _
  rw [Tokenizer.finalize_ser t2 hinv2, hser2, linesG_splitOnNl]
  rfl

end EdgeLexer
